import Mathlib

/-
  Verification development for the meal-taxonomy "Meal Brain" core
  (src/meal_taxonomy/brain/upsert_meal.py and its collaborators).

  The Python code is shallowly embedded: pure helpers become Lean functions
  over List Char / String / Rat; the Supabase client becomes an explicit
  record of state-passing operations, so that exceptions raised by the store
  are modelled as Except results and the sequence of issued requests is
  observable as state.  Python floats are modelled as exact rationals.
-/

set_option maxRecDepth 1000000

namespace MealTaxonomy

/-! ## Python string primitives

Character-level models of the Python `str` operations and `re` substitutions
used by `src/meal_taxonomy/enrichment/cleaning.py`.  Only ASCII case mapping
is modelled (the Python code is Unicode-aware, but every transformation used
here acts on ASCII letters and digits). -/

/-- Python `\s` whitespace class (ASCII part). -/
def is_py_space (c : Char) : Bool :=
  c = ' ' || c = '\t' || c = '\n' || c = '\r' || c = Char.ofNat 11 || c = Char.ofNat 12

/-- Python `\w` word-character class (ASCII part), used for `\b` boundaries. -/
def is_word_char (c : Char) : Bool :=
  c.isAlphanum || c = '_'

/-- `str.strip()` on a character list: drop leading and trailing whitespace. -/
def strip_ws (cs : List Char) : List Char :=
  ((cs.dropWhile is_py_space).reverse.dropWhile is_py_space).reverse

/-- `str.strip(chars)`: drop leading and trailing characters from a set. -/
def strip_set (bad : List Char) (cs : List Char) : List Char :=
  ((cs.dropWhile (fun c => bad.contains c)).reverse.dropWhile
    (fun c => bad.contains c)).reverse

/-- `re.sub(r"\s+", " ", t)`: replace each maximal whitespace run by one
space (`prev_space` tracks whether the current position is inside a run). -/
def collapse_ws_aux : Bool → List Char → List Char
  | _, [] => []
  | prev_space, c :: rest =>
    if is_py_space c then
      if prev_space then collapse_ws_aux true rest
      else ' ' :: collapse_ws_aux true rest
    else c :: collapse_ws_aux false rest

def collapse_ws (cs : List Char) : List Char := collapse_ws_aux false cs

/-- Case-insensitive match of a (lowercase) literal pattern against a prefix
of the input; returns the remaining input on success. -/
def match_ci (pat cs : List Char) : Option (List Char) :=
  match pat, cs with
  | [], rest => some rest
  | _ :: _, [] => none
  | p :: ps, c :: cs2 => if c.toLower = p then match_ci ps cs2 else none

theorem match_ci_length {pat cs rest : List Char}
    (h : match_ci pat cs = some rest) : rest.length + pat.length = cs.length := by
  induction pat generalizing cs with
  | nil => simp [match_ci] at h; simp [h]
  | cons p ps ih =>
    match cs with
    | [] => simp [match_ci] at h
    | c :: cs2 =>
      simp only [match_ci] at h
      split at h
      · have := ih h
        simp only [List.length_cons]
        omega
      · exact absurd h (by simp)

/-- Try a list of `(pattern, replacement)` alternatives at the current
position, in order, requiring a trailing `\b` word boundary (all patterns
used here end in a word character).  Models the alternation inside
`re.sub(r"\b(w1|w2|...)\b", repl, t, flags=re.I)`. -/
def try_pats (pats : List (List Char × List Char)) (cs : List Char) :
    Option (List Char × List Char) :=
  match pats with
  | [] => none
  | (w, r) :: ps =>
    match match_ci w cs with
    | some rest =>
      match rest.head? with
      | some nc => if is_word_char nc then try_pats ps cs else some (r, rest)
      | none => some (r, rest)
    | none => try_pats ps cs

/-- One left-to-right `re.sub` pass for word-bounded literal alternatives.
`prev` is the character of the original string just before the current
position (for the leading `\b`); every pattern used starts and ends with a
word character.  Recursion is fuelled (one unit per input position; the
wrapper supplies enough); the inner length guard only rules out the never
instantiated empty pattern. -/
def sub_wb_fuel (pats : List (List Char × List Char)) :
    Nat → Option Char → List Char → List Char
  | 0, _, cs => cs
  | _ + 1, _, [] => []
  | fuel + 1, prev, c :: rest =>
    let bOk := match prev with
      | none => true
      | some p => !(is_word_char p)
    if bOk then
      match try_pats pats (c :: rest) with
      | some (r, tail) =>
        if tail.length < rest.length + 1 then
          r ++ sub_wb_fuel pats fuel
            (((c :: rest).take ((c :: rest).length - tail.length)).getLast?) tail
        else c :: sub_wb_fuel pats fuel (some c) rest
      | none => c :: sub_wb_fuel pats fuel (some c) rest
    else c :: sub_wb_fuel pats fuel (some c) rest

def sub_wb (pats : List (List Char × List Char)) (prev : Option Char)
    (cs : List Char) : List Char :=
  sub_wb_fuel pats cs.length prev cs

/-- Is `needle` a prefix of `hay`? (plain Bool version). -/
def begins_with : List Char → List Char → Bool
  | [], _ => true
  | _ :: _, [] => false
  | n :: ns, h :: hs => n = h && begins_with ns hs

/-- Contiguous-substring test (`needle in hay` for Python strings). -/
def contains_sub (needle : List Char) : List Char → Bool
  | [] => begins_with needle []
  | h :: hs => begins_with needle (h :: hs) || contains_sub needle hs

/-- `re.sub(r"\([^)]*recipe[^)]*\)", "", t, flags=re.I)`: remove each
parenthesized group, free of inner `)` characters, that contains the word
"recipe" (case-insensitively).  Fuelled recursion (one unit per position). -/
def drop_recipe_parens_fuel : Nat → List Char → List Char
  | 0, cs => cs
  | _ + 1, [] => []
  | fuel + 1, c :: rest =>
    if c = '(' then
      match rest.dropWhile (fun x => x ≠ ')') with
      | _ :: after =>
        if contains_sub (String.toList ("recipe"))
            ((rest.takeWhile (fun x => x ≠ ')')).map Char.toLower) then
          drop_recipe_parens_fuel fuel after
        else c :: drop_recipe_parens_fuel fuel rest
      | [] => c :: drop_recipe_parens_fuel fuel rest
    else c :: drop_recipe_parens_fuel fuel rest

def drop_recipe_parens (cs : List Char) : List Char :=
  drop_recipe_parens_fuel cs.length cs

/-- The junk-word removal pattern of `clean_meal_name`:
`\b(recipe|authentic|best|easy|quick)\b` replaced by the empty string. -/
def junk_pats : List (List Char × List Char) :=
  [(String.toList ("recipe"), []),
   (String.toList ("authentic"), []),
   (String.toList ("best"), []),
   (String.toList ("easy"), []),
   (String.toList ("quick"), [])]

/-- `_COMMON_REPLACEMENTS` from cleaning.py, applied one `re.sub` at a time. -/
def common_replacements : List (List Char × List Char) :=
  [(String.toList ("recipe"), []),
   (String.toList ("idly"), String.toList ("idli")),
   (String.toList ("dahi"), String.toList ("curd")),
   (String.toList ("mirchi"), String.toList ("chilli")),
   (String.toList ("chilli powder"), String.toList ("red chilli powder"))]

/-- `clean_meal_name` from cleaning.py (the `str` branch; a non-string input
returns None there and is not representable here). -/
def clean_meal_name_l (name : List Char) : Option (List Char) :=
  let t0 := strip_ws name
  if t0 = [] then none
  else
    let t1 := sub_wb junk_pats none t0
    let t2 := strip_ws (collapse_ws t1)
    let t3 := drop_recipe_parens t2
    let t4 := sub_wb [(String.toList ("recipe"), [])] none t3
    let t5 := collapse_ws t4
    let t6 := strip_set [' ', '-', Char.ofNat 0x2013, Char.ofNat 0x2014] t5
    let t7 := common_replacements.foldl (fun acc p => sub_wb [p] none acc) t6
    some t7

/-- Is `c` a lowercase ASCII letter or digit (`[a-z0-9]`)? -/
def is_lower_alnum (c : Char) : Bool :=
  ('a' ≤ c && c ≤ 'z') || ('0' ≤ c && c ≤ '9')

/-- Maximal runs of characters satisfying `p` (used to model splitting a
string at the complement runs); `cur` is the reversed run in progress. -/
def runs_of_aux (p : Char → Bool) : List Char → List Char → List (List Char)
  | cur, [] => if cur = [] then [] else [cur.reverse]
  | cur, c :: rest =>
    if p c then runs_of_aux p (c :: cur) rest
    else if cur = [] then runs_of_aux p [] rest
    else cur.reverse :: runs_of_aux p [] rest

def runs_of (p : Char → Bool) (cs : List Char) : List (List Char) :=
  runs_of_aux p [] cs

/-- `str.split()` (no separator): whitespace-delimited tokens, empties dropped. -/
def py_split_l (cs : List Char) : List (List Char) :=
  runs_of (fun c => !(is_py_space c)) cs

def lower_l (cs : List Char) : List Char := cs.map Char.toLower

/-- Join tokens with single spaces. -/
def join_words : List (List Char) → List Char
  | [] => []
  | [w] => w
  | w :: rest => w ++ ' ' :: join_words rest

/-- `normalize_title` from cleaning.py: clean junk, fall back to the
original on a falsy cleaning result, lowercase, replace `[^a-z0-9]+` runs by
single spaces, collapse and strip.  The last three steps are equivalently:
keep the maximal `[a-z0-9]` runs of the lowercased text, joined by single
spaces. -/
def normalize_title_l (cs : List Char) : List Char :=
  let cleaned :=
    match clean_meal_name_l cs with
    | some t => if t = [] then cs else t
    | none => cs
  join_words (runs_of is_lower_alnum (lower_l cleaned))

def normalize_title (s : String) : String :=
  String.mk (normalize_title_l s.toList)

/-- `_normalize` from upsert_meal.py:
`" ".join((s or "").strip().lower().split())`, with a possibly-None input. -/
def py_normalize (s : Option String) : String :=
  String.mk (join_words (py_split_l (lower_l (s.getD ("")).toList)))

/-- Python `a or b` for two optional strings (None and "" are falsy). -/
def py_or_opt (a b : Option String) : Option String :=
  match a with
  | some s => if s = "" then b else some s
  | none => b

/-- Python `a or b` where `a` is a plain string and `b` the fallback. -/
def py_or_str (a b : String) : String :=
  if a = "" then b else a

/-! ## `difflib.SequenceMatcher(a=q, b=c).ratio()`

Character-level sequence alignment as used by `_score_candidate`.  The
model follows difflib with `isjunk=None` and the default `autojunk=True`:
when `b` has at least 200 characters, characters occurring in `b` more
than `len(b) // 100 + 1` times are dropped from the `b2j` index, so they
cannot participate in seeding a matching block; the junk set proper stays
empty, so the seed found by the `j2len` scan is then extended on both ends
over plain character equality (the two non-junk extension loops of
`find_longest_match`; the two junk extension loops are vacuous).  Of all
maximal seeds the scan keeps the one completing earliest, which is the one
starting earliest in `a`, then earliest in `b`; `get_matching_blocks`
recurses on both sides of the extended block. -/

/-- Length of the common prefix of two character lists. -/
def match_run : List Char → List Char → Nat
  | a :: as2, b :: bs => if a = b then match_run as2 bs + 1 else 0
  | _, _ => 0

theorem match_run_le_left (a b : List Char) : match_run a b ≤ a.length := by
  induction a generalizing b with
  | nil => simp [match_run]
  | cons x xs ih =>
    match b with
    | [] => simp [match_run]
    | y :: ys =>
      simp only [match_run, List.length_cons]
      split
      · have := ih ys; omega
      · omega

theorem match_run_le_right (a b : List Char) : match_run a b ≤ b.length := by
  induction a generalizing b with
  | nil => simp [match_run]
  | cons x xs ih =>
    match b with
    | [] => simp [match_run]
    | y :: ys =>
      simp only [match_run, List.length_cons]
      split
      · have := ih ys; omega
      · omega

theorem match_run_self (a : List Char) : match_run a a = a.length := by
  induction a with
  | nil => simp [match_run]
  | cons x xs ih => simp [match_run, ih]

/-- All index pairs `(i, j)` with `i < la`, `j < lb`, in the scan order of
difflib's `find_longest_match` (outer loop over `a`, inner over `b`). -/
def all_pairs (la lb : Nat) : List (Nat × Nat) :=
  ((List.range la).map (fun i => (List.range lb).map (fun j => (i, j)))).flatten

theorem mem_all_pairs {la lb : Nat} {p : Nat × Nat} :
    p ∈ all_pairs la lb ↔ p.1 < la ∧ p.2 < lb := by
  cases p with
  | mk i j =>
    constructor
    · intro h
      simp only [all_pairs, List.mem_flatten, List.mem_map, List.mem_range] at h
      obtain ⟨l, ⟨i0, hi0, rfl⟩, hm⟩ := h
      simp only [List.mem_map, List.mem_range, Prod.mk.injEq] at hm
      obtain ⟨j0, hj0, h1, h2⟩ := hm
      exact ⟨h1 ▸ hi0, h2 ▸ hj0⟩
    · rintro ⟨hi, hj⟩
      simp only [all_pairs, List.mem_flatten, List.mem_map]
      refine ⟨(List.range lb).map (fun j => (i, j)), ⟨i, List.mem_range.mpr hi, rfl⟩, ?_⟩
      exact List.mem_map.mpr ⟨j, List.mem_range.mpr hj, rfl⟩

/-- The popularity test of difflib's autojunk heuristic: for `b` of length
at least 200, characters occurring in `b` more than `len(b) // 100 + 1`
times are dropped from the `b2j` index. -/
def popular (b : List Char) (c : Char) : Bool :=
  decide (200 ≤ b.length) && decide (b.length / 100 + 1 < b.count c)

/-- Length of the common prefix of two character lists all of whose
characters on the `b` side pass the junk filter: difflib's `j2len` chains
run only through positions kept in `b2j`. -/
def match_run_j (jk : Char → Bool) : List Char → List Char → Nat
  | a :: as2, b :: bs =>
    if a = b ∧ jk b = false then match_run_j jk as2 bs + 1 else 0
  | _, _ => 0

theorem match_run_j_le_left (jk : Char → Bool) (a b : List Char) :
    match_run_j jk a b ≤ a.length := by
  induction a generalizing b with
  | nil => simp [match_run_j]
  | cons x xs ih =>
    match b with
    | [] => simp [match_run_j]
    | y :: ys =>
      simp only [match_run_j, List.length_cons]
      split
      · have := ih ys; omega
      · omega

theorem match_run_j_le_right (jk : Char → Bool) (a b : List Char) :
    match_run_j jk a b ≤ b.length := by
  induction a generalizing b with
  | nil => simp [match_run_j]
  | cons x xs ih =>
    match b with
    | [] => simp [match_run_j]
    | y :: ys =>
      simp only [match_run_j, List.length_cons]
      split
      · have := ih ys; omega
      · omega

/-- A junk-filtered common run is no longer than the self-run of its `b`
side (the junk filter only inspects `b`-side characters). -/
theorem match_run_j_le_right_diag (jk : Char → Bool) (a b : List Char) :
    match_run_j jk a b ≤ match_run_j jk b b := by
  induction a generalizing b with
  | nil => simp [match_run_j]
  | cons x xs ih =>
    match b with
    | [] => simp [match_run_j]
    | y :: ys =>
      simp only [match_run_j]
      split
      · rename_i hcond
        rw [if_pos ⟨trivial, hcond.2⟩]
        have := ih ys
        omega
      · exact Nat.zero_le _

/-- A junk-filtered common run is no longer than the self-run of its `a`
side: matched characters are equal, so the junk filter accepts the `a`-side
characters too. -/
theorem match_run_j_le_left_diag (jk : Char → Bool) (a b : List Char) :
    match_run_j jk a b ≤ match_run_j jk a a := by
  induction a generalizing b with
  | nil => simp [match_run_j]
  | cons x xs ih =>
    match b with
    | [] => simp [match_run_j]
    | y :: ys =>
      simp only [match_run_j]
      split
      · rename_i hcond
        have hx : jk x = false := by rw [hcond.1]; exact hcond.2
        rw [if_pos ⟨trivial, hx⟩]
        have := ih ys
        omega
      · exact Nat.zero_le _

/-- One step of the seed scan: strictly longer blocks replace the current
best, so the first seed attaining the maximum wins. -/
def bm_step (jk : Char → Bool) (a b : List Char) (acc : Nat × Nat × Nat)
    (p : Nat × Nat) : Nat × Nat × Nat :=
  if match_run_j jk (a.drop p.1) (b.drop p.2) > acc.2.2
  then (p.1, p.2, match_run_j jk (a.drop p.1) (b.drop p.2)) else acc

/-- The seed block `(i, j, size)` found by the `j2len` scan (popular
characters cannot participate). -/
def best_seed (jk : Char → Bool) (a b : List Char) : Nat × Nat × Nat :=
  (all_pairs a.length b.length).foldl (bm_step jk a b) (0, 0, 0)

theorem foldl_preserve {α β : Type} (f : β → α → β) (P : β → Prop)
    (l : List α) (init : β) (h0 : P init)
    (hstep : ∀ bb aa, aa ∈ l → P bb → P (f bb aa)) :
    P (l.foldl f init) := by
  induction l generalizing init with
  | nil => exact h0
  | cons x xs ih =>
    exact ih (f init x) (hstep init x (by simp) h0)
      (fun bb aa ha => hstep bb aa (by simp [ha]))

theorem bm_step_mono (jk : Char → Bool) (a b : List Char)
    (acc : Nat × Nat × Nat) (p : Nat × Nat) :
    acc.2.2 ≤ (bm_step jk a b acc p).2.2 := by
  unfold bm_step
  split
  · rename_i hgt
    exact le_of_lt hgt
  · exact le_refl _

/-- Pairs whose run cannot beat the accumulator leave the scan unchanged. -/
theorem bm_fold_noop (jk : Char → Bool) (a b : List Char)
    (cols : List (Nat × Nat)) (acc : Nat × Nat × Nat)
    (h : ∀ p ∈ cols, match_run_j jk (a.drop p.1) (b.drop p.2) ≤ acc.2.2) :
    cols.foldl (bm_step jk a b) acc = acc := by
  induction cols with
  | nil => rfl
  | cons p ps ih =>
    have hstep : bm_step jk a b acc p = acc := by
      unfold bm_step
      rw [if_neg (not_lt.mpr (h p (by simp)))]
    rw [List.foldl_cons, hstep]
    exact ih (fun q hq => h q (by simp [hq]))

theorem best_seed_size_le (jk : Char → Bool) (a b : List Char) :
    (best_seed jk a b).1 + (best_seed jk a b).2.2 ≤ a.length ∧
    (best_seed jk a b).2.1 + (best_seed jk a b).2.2 ≤ b.length := by
  refine foldl_preserve (bm_step jk a b)
    (fun t => t.1 + t.2.2 ≤ a.length ∧ t.2.1 + t.2.2 ≤ b.length)
    (all_pairs a.length b.length) (0, 0, 0) (by simp) ?_
  intro bb aa ha hbb
  simp only [bm_step]
  split
  · have hm := mem_all_pairs.mp ha
    have h1 := match_run_j_le_left jk (a.drop aa.1) (b.drop aa.2)
    have h2 := match_run_j_le_right jk (a.drop aa.1) (b.drop aa.2)
    simp only [List.length_drop] at h1 h2
    constructor
    · show aa.1 + match_run_j jk (a.drop aa.1) (b.drop aa.2) ≤ a.length
      omega
    · show aa.2 + match_run_j jk (a.drop aa.1) (b.drop aa.2) ≤ b.length
      omega
  · exact hbb

theorem foldl_flatten_eq {α β : Type} (f : β → α → β) (L : List (List α)) :
    ∀ init, L.flatten.foldl f init =
      L.foldl (fun acc s => s.foldl f acc) init := by
  induction L with
  | nil => intro init; rfl
  | cons s rest ih =>
    intro init
    rw [List.flatten_cons, List.foldl_append, List.foldl_cons]
    exact ih (s.foldl f init)

/-- Invariant propagation along a fold over `List.range n`. -/
theorem foldl_range_inv {β : Type} (f : β → Nat → β) (P : Nat → β → Prop)
    (n : Nat) :
    ∀ (init : β), P 0 init →
      (∀ r acc, r < n → P r acc → P (r + 1) (f acc r)) →
      P n ((List.range n).foldl f init) := by
  induction n with
  | zero =>
    intro init h0 _
    exact h0
  | succ m ih =>
    intro init h0 hstep
    rw [List.range_succ, List.foldl_append]
    simp only [List.foldl_cons, List.foldl_nil]
    exact hstep m _ (Nat.lt_succ_self m)
      (ih init h0 (fun r acc hr hp => hstep r acc (Nat.lt_succ_of_lt hr) hp))

/-- On identical strings the winning seed lies on the main diagonal: any
off-diagonal common run is dominated by a diagonal run (its `b`-side
positions form a diagonal run of the same length) that completes earlier in
the scan. -/
theorem best_seed_diag (jk : Char → Bool) (l : List Char) :
    (best_seed jk l l).1 = (best_seed jk l l).2.1 := by
  have hrw : best_seed jk l l =
      (List.range l.length).foldl
        (fun acc i => ((List.range l.length).map (fun j => (i, j))).foldl
          (bm_step jk l l) acc) (0, 0, 0) := by
    unfold best_seed all_pairs
    rw [foldl_flatten_eq]
    rw [List.foldl_map]
  rw [hrw]
  refine (foldl_range_inv
    (fun acc i => ((List.range l.length).map (fun j => (i, j))).foldl
      (bm_step jk l l) acc)
    (fun r acc => acc.1 = acc.2.1 ∧
      ∀ d, d < r → match_run_j jk (l.drop d) (l.drop d) ≤ acc.2.2)
    l.length (0, 0, 0) ⟨rfl, fun d hd => absurd hd (Nat.not_lt_zero d)⟩ ?_).1
  intro r acc hr hP
  obtain ⟨hdiag, hdom⟩ := hP
  dsimp only
  have hm : l.length = r + ((l.length - r - 1) + 1) := by omega
  have hsplit : List.range l.length =
      List.range r ++ (List.range ((l.length - r - 1) + 1)).map (fun x => r + x) := by
    conv_lhs => rw [hm]
    exact List.range_add r ((l.length - r - 1) + 1)
  have hsplit2 : (List.range ((l.length - r - 1) + 1)).map (fun x => r + x) =
      r :: (List.range (l.length - r - 1)).map (fun x => r + (x + 1)) := by
    rw [List.range_succ_eq_map]
    simp only [List.map_cons, List.map_map, Nat.add_zero]
    rfl
  have hrowsplit : (List.range l.length).map (fun j => ((r : Nat), j)) =
      (List.range r).map (fun j => (r, j)) ++
      ((r, r) :: ((List.range (l.length - r - 1)).map (fun x => r + (x + 1))).map
        (fun j => (r, j))) := by
    rw [hsplit, hsplit2, List.map_append, List.map_cons]
  have hA : ((List.range r).map (fun j => ((r : Nat), j))).foldl
      (bm_step jk l l) acc = acc := by
    apply bm_fold_noop
    intro p hp
    simp only [List.mem_map, List.mem_range] at hp
    obtain ⟨j, hj, rfl⟩ := hp
    calc match_run_j jk (l.drop r) (l.drop j)
        ≤ match_run_j jk (l.drop j) (l.drop j) :=
          match_run_j_le_right_diag jk _ _
      _ ≤ acc.2.2 := hdom j hj
  have hacc1 : (bm_step jk l l acc (r, r)).1 = (bm_step jk l l acc (r, r)).2.1 := by
    unfold bm_step
    split
    · rfl
    · exact hdiag
  have haccr : match_run_j jk (l.drop r) (l.drop r) ≤
      (bm_step jk l l acc (r, r)).2.2 := by
    unfold bm_step
    split
    · exact le_refl _
    · rename_i hng
      simp only [gt_iff_lt, not_lt] at hng
      exact hng
  have hdom2 : ∀ d, d < r + 1 →
      match_run_j jk (l.drop d) (l.drop d) ≤ (bm_step jk l l acc (r, r)).2.2 := by
    intro d hd
    rcases Nat.lt_succ_iff_lt_or_eq.mp hd with h | h
    · exact le_trans (hdom d h) (bm_step_mono jk l l acc (r, r))
    · subst h
      exact haccr
  have hB : (((List.range (l.length - r - 1)).map (fun x => r + (x + 1))).map
      (fun j => ((r : Nat), j))).foldl (bm_step jk l l)
      (bm_step jk l l acc (r, r)) = bm_step jk l l acc (r, r) := by
    apply bm_fold_noop
    intro p hp
    simp only [List.map_map, List.mem_map, List.mem_range] at hp
    obtain ⟨y, hy, rfl⟩ := hp
    calc match_run_j jk (l.drop r) (l.drop (r + (y + 1)))
        ≤ match_run_j jk (l.drop r) (l.drop r) :=
          match_run_j_le_left_diag jk _ _
      _ ≤ (bm_step jk l l acc (r, r)).2.2 := haccr
  rw [hrowsplit, List.foldl_append, hA, List.foldl_cons, hB]
  exact ⟨hacc1, hdom2⟩

/-- Backward extension of the seed: difflib's first while-loop.  With
`isjunk=None` the junk set is empty, so only character equality (and the
segment bounds) limit the extension; this is the common prefix of the
reversed prefixes. -/
def ext_back (a b : List Char) (i j : Nat) : Nat :=
  match_run (a.take i).reverse (b.take j).reverse

/-- The extended longest matching block of `find_longest_match`: the seed
of the `j2len` scan, extended backward and forward over equal characters
(the two junk extension loops are vacuous for `isjunk=None`). -/
def best_match (jk : Char → Bool) (a b : List Char) : Nat × Nat × Nat :=
  ((best_seed jk a b).1
      - ext_back a b (best_seed jk a b).1 (best_seed jk a b).2.1,
   (best_seed jk a b).2.1
      - ext_back a b (best_seed jk a b).1 (best_seed jk a b).2.1,
   ext_back a b (best_seed jk a b).1 (best_seed jk a b).2.1
     + (best_seed jk a b).2.2
     + match_run (a.drop ((best_seed jk a b).1 + (best_seed jk a b).2.2))
         (b.drop ((best_seed jk a b).2.1 + (best_seed jk a b).2.2)))

/-- On identical strings the diagonal seed extends to the whole string, so
the first matching block is everything — difflib's ratio of a string with
itself is 1 even when autojunk removes every character from `b2j`, because
the extension loops run on plain equality. -/
theorem best_match_self (jk : Char → Bool) (l : List Char) :
    best_match jk l l = (0, 0, l.length) := by
  have hdiag := best_seed_diag jk l
  have hsize := (best_seed_size_le jk l l).1
  unfold best_match
  rw [← hdiag]
  have hd : (best_seed jk l l).1 ≤ l.length :=
    le_trans (Nat.le_add_right _ _) hsize
  have he1 : ext_back l l (best_seed jk l l).1 (best_seed jk l l).1 =
      (best_seed jk l l).1 := by
    unfold ext_back
    rw [match_run_self]
    simp only [List.length_reverse, List.length_take]
    exact Nat.min_eq_left hd
  have he2 : match_run (l.drop ((best_seed jk l l).1 + (best_seed jk l l).2.2))
      (l.drop ((best_seed jk l l).1 + (best_seed jk l l).2.2)) =
      l.length - ((best_seed jk l l).1 + (best_seed jk l l).2.2) := by
    rw [match_run_self, List.length_drop]
  rw [he1, he2, Nat.sub_self]
  have h3 : (best_seed jk l l).1 + (best_seed jk l l).2.2
      + (l.length - ((best_seed jk l l).1 + (best_seed jk l l).2.2)) =
      l.length := by omega
  rw [h3]

/-- Total size of the matching blocks of difflib's recursive decomposition
(the `sum(size for ... in get_matching_blocks())` entering `ratio()`).
Fuelled recursion: every recursive call strictly decreases the summed
length, so `a.length + b.length + 1` units always suffice. -/
def match_total_fuel (jk : Char → Bool) : Nat → List Char → List Char → Nat
  | 0, _, _ => 0
  | fuel + 1, a, b =>
    if (best_match jk a b).2.2 = 0 then 0
    else
      match_total_fuel jk fuel (a.take (best_match jk a b).1)
          (b.take (best_match jk a b).2.1)
        + (best_match jk a b).2.2
        + match_total_fuel jk fuel
            (a.drop ((best_match jk a b).1 + (best_match jk a b).2.2))
            (b.drop ((best_match jk a b).2.1 + (best_match jk a b).2.2))

/-- The matched total of `SequenceMatcher(a=a, b=b)`: the junk predicate is
the popularity test computed from `b` once, then threaded through the
block recursion (difflib builds `b2j` once per matcher). -/
def match_total (a b : List Char) : Nat :=
  match_total_fuel (popular b) (a.length + b.length + 1) a b

/-- `difflib.SequenceMatcher(a=q, b=c).ratio() = 2*M / (len(a)+len(b))`.
(The Python call sites guard against both strings being empty; the rational
division returns 0 there.) -/
def seq_ratio (q c : String) : ℚ :=
  2 * (match_total q.toList c.toList : ℚ)
    / ((q.toList.length : ℚ) + (c.toList.length : ℚ))

theorem match_total_fuel_nil (jk : Char → Bool) (fuel : Nat) :
    match_total_fuel jk fuel [] [] = 0 := by
  cases fuel with
  | zero => rfl
  | succ m =>
    have h : best_match jk ([] : List Char) [] = (0, 0, 0) := rfl
    simp [match_total_fuel, h]

theorem match_total_nil : match_total [] [] = 0 := match_total_fuel_nil _ 1

theorem match_total_self (l : List Char) : match_total l l = l.length := by
  match l with
  | [] => exact match_total_nil
  | c :: rest =>
    unfold match_total
    have hfuel : (c :: rest).length + (c :: rest).length + 1 =
        ((c :: rest).length + (c :: rest).length) + 1 := rfl
    rw [hfuel]
    unfold match_total_fuel
    rw [best_match_self (popular (c :: rest)) (c :: rest)]
    simp only [List.length_cons, List.take_zero, List.drop_length]
    rw [if_neg (by simp)]
    have hdrop : List.drop (0 + (rest.length + 1)) (c :: rest) = [] := by
      apply List.drop_eq_nil_of_le
      simp
    rw [hdrop]
    simp only [match_total_fuel_nil]
    omega

theorem seq_ratio_self (q : String) (hq : q ≠ "") : seq_ratio q q = 1 := by
  have hne : q.toList ≠ [] := by
    intro h
    apply hq
    cases q with
    | mk data => simp [String.toList] at h; simp [h]
  have hlen : 0 < q.toList.length := List.length_pos.mpr hne
  simp only [seq_ratio, match_total_self]
  have h2 : ((q.toList.length : ℚ) + (q.toList.length : ℚ)) ≠ 0 := by
    have : (0 : ℚ) < (q.toList.length : ℚ) := by exact_mod_cast hlen
    linarith
  rw [div_eq_one_iff_eq h2]
  ring

/-! ## Token-set Jaccard similarity (`_score_candidate`, Score A) -/

/-- `set(q.split())` as a deduplicated token list. -/
def token_set (s : String) : List (List Char) :=
  (py_split_l s.toList).dedup

/-- `len(q_tokens & c_tokens) / (len(q_tokens | c_tokens) or 1)`. -/
def jaccard (q c : String) : ℚ :=
  ((token_set q).filter (fun t => (token_set c).contains t)).length /
    (if ((token_set q) ++ (token_set c)).dedup.length = 0 then 1
     else (((token_set q) ++ (token_set c)).dedup.length : ℚ))

theorem jaccard_self (q : String) (hq : token_set q ≠ []) : jaccard q q = 1 := by
  have hnodup : (token_set q).Nodup := List.nodup_dedup _
  have hfilter : (token_set q).filter (fun t => (token_set q).contains t)
      = token_set q := by
    apply List.filter_eq_self.mpr
    intro a ha
    exact List.elem_eq_true_of_mem ha
  have hcard : ((token_set q) ++ (token_set q)).dedup.length
      = (token_set q).length := by
    have h1 : ((token_set q) ++ (token_set q)).dedup.length
        = ((token_set q) ++ (token_set q)).toFinset.card := by
      rw [List.card_toFinset]
    rw [h1, List.toFinset_append, Finset.union_self,
      List.toFinset_card_of_nodup hnodup]
  have hpos : 0 < (token_set q).length := List.length_pos.mpr hq
  simp only [jaccard, hfilter, hcard]
  rw [if_neg (by omega)]
  exact div_self (Nat.cast_ne_zero.mpr (by omega))

/-- The name-similarity blend of `_score_candidate` (Score A), together with
the empty-string guard that precedes it in the Python code:
`0.55 * jacc + 0.45 * seq` on nonempty normalized names, 0 otherwise. -/
def name_score (q c : String) : ℚ :=
  if q = "" || c = "" then 0
  else (0.55 : ℚ) * jaccard q c + (0.45 : ℚ) * seq_ratio q c

/-! ## Round-trip facts about tokenisation

These connect `normalize_title` (which emits alnum tokens joined by single
spaces) with Python's `str.split()` as used in the Jaccard token sets. -/

theorem lower_alnum_not_space {c : Char} (h : is_lower_alnum c = true) :
    is_py_space c = false := by
  cases hps : is_py_space c with
  | false => rfl
  | true =>
    simp only [is_py_space, Bool.or_eq_true, decide_eq_true_eq] at hps
    rcases hps with ((((h1 | h1) | h1) | h1) | h1) | h1 <;>
      (subst h1; exact absurd h (by decide))

/-- An open run followed by a failing head (or the end) is emitted whole. -/
theorem runs_of_aux_close (p : Char → Bool) (cur rest : List Char)
    (hcur : cur ≠ []) (hr : ∀ r, rest.head? = some r → p r = false) :
    runs_of_aux p cur rest = cur.reverse :: runs_of p rest := by
  match rest with
  | [] => simp [runs_of_aux, runs_of, hcur]
  | r :: t =>
    have hrf : p r = false := hr r rfl
    show runs_of_aux p cur (r :: t) = cur.reverse :: runs_of_aux p [] (r :: t)
    simp [runs_of_aux, hrf, hcur]

/-- A run of `p`-characters extends the open run and is then split off as
one token at the following non-`p` boundary. -/
theorem runs_of_aux_word_append (p : Char → Bool) (w : List Char) :
    ∀ (cur rest : List Char), (∀ c ∈ w, p c = true) →
      (w = [] → cur ≠ []) →
      (∀ r, rest.head? = some r → p r = false) →
      runs_of_aux p cur (w ++ rest) = (cur.reverse ++ w) :: runs_of p rest := by
  induction w with
  | nil =>
    intro cur rest _ hcur hr
    simp only [List.nil_append, List.append_nil]
    exact runs_of_aux_close p cur rest (hcur rfl) hr
  | cons c w2 ih =>
    intro cur rest hw _ hr
    have hc : p c = true := hw c (by simp)
    show runs_of_aux p cur (c :: (w2 ++ rest)) = _
    rw [show runs_of_aux p cur (c :: (w2 ++ rest)) =
        runs_of_aux p (c :: cur) (w2 ++ rest) by simp [runs_of_aux, hc]]
    rw [ih (c :: cur) rest (fun x hx => hw x (by simp [hx]))
      (fun _ => by simp) hr]
    simp

/-- A run of `p`-characters followed by a non-`p` boundary is split off as
one token by `runs_of`. -/
theorem runs_of_word_append (p : Char → Bool) (w rest : List Char)
    (hne : w ≠ []) (hw : ∀ c ∈ w, p c = true)
    (hr : ∀ r, rest.head? = some r → p r = false) :
    runs_of p (w ++ rest) = w :: runs_of p rest := by
  unfold runs_of
  rw [show runs_of_aux p [] (w ++ rest) =
      (List.reverse [] ++ w) :: runs_of p rest from
    runs_of_aux_word_append p w [] rest hw (fun h => absurd h hne) hr]
  simp [runs_of]

/-- When the first character fails `p`, `runs_of` skips it. -/
theorem runs_of_cons_neg (p : Char → Bool) (c : Char) (t : List Char)
    (hc : p c = false) : runs_of p (c :: t) = runs_of p t := by
  unfold runs_of
  simp [runs_of_aux, hc]

theorem runs_of_aux_sound (p : Char → Bool) (cs : List Char) :
    ∀ (cur : List Char), (∀ c ∈ cur, p c = true) →
      ∀ w ∈ runs_of_aux p cur cs, w ≠ [] ∧ ∀ c ∈ w, p c = true := by
  induction cs with
  | nil =>
    intro cur hcur w hw
    by_cases h : cur = []
    · simp [runs_of_aux, h] at hw
    · simp only [runs_of_aux, if_neg h, List.mem_singleton] at hw
      subst hw
      refine ⟨by simpa using h, ?_⟩
      intro c hc
      exact hcur c (List.mem_reverse.mp hc)
  | cons c rest ih =>
    intro cur hcur w hw
    by_cases hc : p c = true
    · rw [show runs_of_aux p cur (c :: rest) = runs_of_aux p (c :: cur) rest by
        simp [runs_of_aux, hc]] at hw
      refine ih (c :: cur) ?_ w hw
      intro x hx
      rcases List.mem_cons.mp hx with h | h
      · subst h
        exact hc
      · exact hcur x h
    · have hcf : p c = false := by
        cases h2 : p c
        · rfl
        · exact absurd h2 hc
      by_cases hcur0 : cur = []
      · rw [show runs_of_aux p cur (c :: rest) = runs_of_aux p [] rest by
          simp [runs_of_aux, hcf, hcur0]] at hw
        exact ih [] (by simp) w hw
      · rw [show runs_of_aux p cur (c :: rest) =
            cur.reverse :: runs_of_aux p [] rest by
          simp [runs_of_aux, hcf, hcur0]] at hw
        rcases List.mem_cons.mp hw with h | h
        · subst h
          refine ⟨by simpa using hcur0, ?_⟩
          intro x hx
          exact hcur x (List.mem_reverse.mp hx)
        · exact ih [] (by simp) w h

/-- Tokens produced by `runs_of` are nonempty and consist of `p`-characters. -/
theorem runs_of_sound (p : Char → Bool) :
    ∀ (n : Nat) (cs : List Char), cs.length ≤ n →
      ∀ w ∈ runs_of p cs, w ≠ [] ∧ ∀ c ∈ w, p c = true := by
  intro n cs _ w hw
  exact runs_of_aux_sound p cs [] (by simp) w hw

/-- Splitting the single-space join of nonempty space-free tokens recovers
exactly the tokens (`str.split()` inverts the join done by
`normalize_title`). -/
theorem py_split_join (toks : List (List Char))
    (h : ∀ w ∈ toks, w ≠ [] ∧ ∀ c ∈ w, is_py_space c = false) :
    py_split_l (join_words toks) = toks := by
  induction toks with
  | nil => simp [join_words, py_split_l, runs_of, runs_of_aux]
  | cons w rest ih =>
    obtain ⟨hw1, hw2⟩ := h w (by simp)
    have hw2b : ∀ c ∈ w, (fun c => !(is_py_space c)) c = true := by
      intro c hc
      simp [hw2 c hc]
    match rest with
    | [] =>
      show py_split_l (join_words [w]) = [w]
      have : join_words [w] = w ++ [] := by simp [join_words]
      rw [this]
      unfold py_split_l
      rw [runs_of_word_append _ w [] hw1 hw2b (by simp)]
      simp [runs_of, runs_of_aux]
    | w2 :: rs =>
      have hjoin : join_words (w :: w2 :: rs) = w ++ ' ' :: join_words (w2 :: rs) := by
        simp [join_words]
      rw [hjoin]
      unfold py_split_l
      rw [runs_of_word_append _ w (' ' :: join_words (w2 :: rs)) hw1 hw2b
        (by intro r hr; simp at hr; subst hr; simp [is_py_space])]
      rw [runs_of_cons_neg _ ' ' _ (by simp [is_py_space])]
      have := ih (fun x hx => h x (by simp [hx]))
      unfold py_split_l at this
      rw [this]

/-- A nonempty `normalize_title` output has a nonempty Python token set. -/
theorem token_set_normalize_ne_nil (s : String)
    (h : normalize_title s ≠ "") : token_set (normalize_title s) ≠ [] := by
  have hdef : normalize_title s = String.mk (join_words (runs_of is_lower_alnum
      (lower_l (match clean_meal_name_l s.toList with
        | some t => if t = [] then s.toList else t
        | none => s.toList)))) := rfl
  set toks := runs_of is_lower_alnum
    (lower_l (match clean_meal_name_l s.toList with
      | some t => if t = [] then s.toList else t
      | none => s.toList)) with htoks
  have hsound : ∀ w ∈ toks, w ≠ [] ∧ ∀ c ∈ w, is_py_space c = false := by
    intro w hw
    obtain ⟨h1, h2⟩ := runs_of_sound is_lower_alnum _ _ (le_refl _) w hw
    exact ⟨h1, fun c hc => lower_alnum_not_space (h2 c hc)⟩
  have htne : toks ≠ [] := by
    intro hnil
    apply h
    rw [hdef, hnil]
    rfl
  unfold token_set
  rw [hdef]
  have hdata : (String.mk (join_words toks)).toList = join_words toks := rfl
  rw [hdata, py_split_join toks hsound]
  simp only [ne_eq, List.dedup_eq_nil]
  exact htne

/-- Two names identical and nonempty after normalization have name score
exactly 1. -/
theorem name_score_self_norm (a b : String)
    (heq : normalize_title a = normalize_title b)
    (hne : normalize_title a ≠ "") :
    name_score (normalize_title a) (normalize_title b) = 1 := by
  rw [← heq]
  unfold name_score
  rw [if_neg (by simp [hne])]
  rw [jaccard_self _ (token_set_normalize_ne_nil a hne),
    seq_ratio_self _ hne]
  norm_num

/-! ## Data model (brain/schema.py, nlp_tagging.py)

Fields that `upsert_meal` merely copies verbatim into write payloads and
never branches on (descriptions, instruction text, timing, servings, debug
bags, …) are elided; every field that feeds the control flow or a claim is
kept.  Ids are the strings handed back by the store. -/

structure RawMeal where
  source_type : String
  source_id : String
  name : String
  cuisine : Option String := none
  course : Option String := none
  diet : Option String := none
  language_code : String := "en"
deriving DecidableEq, Repr

/-- TagCandidate dataclass from nlp_tagging.py. -/
structure TagCandidate where
  tag_type : String
  value : String
  label_en : String := ""
  confidence : ℚ := 1
  is_primary : Bool := false
  label_hi : Option String := none
  label_hinglish : Option String := none
  source : Option String := none
deriving DecidableEq, Repr

structure EnrichedMealVariant where
  raw : RawMeal
  canonical_name : String
  predicted_course : Option String := none
  predicted_diet : Option String := none
  region_tags : List String := []
  tag_candidates : List (Option TagCandidate) := []
  embedding : Option (List ℚ) := none
deriving DecidableEq, Repr

/-- A row of the `search_meals_v2` RPC response.  `id = ""`/`title = ""`
encode a missing or null value (both falsy in the Python dict reads);
`score = none` encodes a missing or null relevance (both read as 0.0
downstream). -/
structure RpcRow where
  id : String
  title : String := ""
  title_normalized : Option String := none
  score : Option ℚ := none
deriving DecidableEq, Repr

/-- A candidate dict as assembled by `_find_candidate_meals`. -/
structure Candidate where
  id : String
  title : String
  title_normalized : String
  score : Option ℚ
deriving DecidableEq, Repr

/-- A `meals` row from the fallback `select("id, title, title_normalized")`. -/
structure MealRow where
  id : String
  title : String := ""
  title_normalized : Option String := none
deriving DecidableEq, Repr

/-- A `meal_variants` row from `select("id, meal_id")`. -/
structure VariantRef where
  id : String
  meal_id : String
deriving DecidableEq, Repr

/-- A row returned by an insert/upsert (`resp.data`); only `id` is read. -/
structure InsertedRow where
  id : String
deriving DecidableEq, Repr

/-- Payload of `_insert_new_canonical` (claim-relevant fields). -/
structure MealPayload where
  title : String
  source : String
  external_source : String
  external_id : String
  language_code : String
  is_canonical : Bool
  canonical_meal_id : Option String
  embedding : Option (List ℚ)
deriving DecidableEq, Repr

/-- Payload of `_upsert_variant` (claim-relevant fields; `tag_candidates` is
the serialized `meta.tag_candidates` snapshot). -/
structure VariantPayload where
  meal_id : String
  source_type : String
  source_id : String
  title_original : String
  course : Option String
  diet : Option String
  needs_review : Bool
  embedding : Option (List ℚ)
  tag_candidates : List TagCandidate
deriving DecidableEq, Repr

/-- Arguments of the `search_meals_v2` RPC call. -/
structure RpcArgs where
  query_text : String
  limit_n : Nat
  diet_value : Option String
  meal_type_value : Option String
  region_value : Option String
deriving DecidableEq, Repr

/-! ## Thresholds (upsert_meal.py) -/

def T_SAME : ℚ := 0.85

def T_MAYBE : ℚ := 0.70

/-- The `denom <= 1e-9` zero-spread guard of `_score_candidate`. -/
def eps_denom : ℚ := 1 / 1000000000

/-- `_serialize_tag_candidates`, common `list[TagCandidate]` branch: one
`asdict(c)` per non-None entry, in input order — no merging of any kind.
(The dict/fallback branches for duck-typed inputs are not modelled.) -/
def serialize_tag_candidates (tag_candidates : List (Option TagCandidate)) :
    List TagCandidate :=
  tag_candidates.filterMap id

/-! ## The store client

The Supabase client is embedded as a record of state-passing operations;
`Except.error ()` is a raised exception.  `side_writes` stands for steps 5
and 6 of `upsert_meal` (`_attach_synonyms`, `_create_tags`): state-only
writes to the synonym/tag tables, which the brain never reads back and whose
responses it ignores. -/

structure Client (σ : Type) where
  select_variant : σ → String → String → Except Unit (List VariantRef) × σ
  rpc_search : σ → RpcArgs → Except Unit (List RpcRow) × σ
  ilike_meals : σ → String → Nat → Except Unit (List MealRow) × σ
  insert_meal : σ → MealPayload → Except Unit (List InsertedRow) × σ
  upsert_variant_row : σ → VariantPayload → String → Except Unit (List InsertedRow) × σ
  side_writes : σ → String → EnrichedMealVariant → σ

/-! ## The brain functions (upsert_meal.py) -/

/-- `_get_existing_variant`: rows[0] of the keyed lookup, or None on
an empty result or any raised exception. -/
def get_existing_variant {σ : Type} (C : Client σ) (e : EnrichedMealVariant)
    (s : σ) : Option VariantRef × σ :=
  match C.select_variant s e.raw.source_type e.raw.source_id with
  | (Except.ok rows, s1) => (rows.head?, s1)
  | (Except.error _, s1) => (none, s1)

/-- `normalize_title(enriched.canonical_name or enriched.raw.name)`. -/
def query_name (e : EnrichedMealVariant) : String :=
  normalize_title (py_or_str e.canonical_name e.raw.name)

def opt_nonempty (s : String) : Option String := if s = "" then none else some s

/-- `_normalize(enriched.predicted_diet or enriched.raw.diet) if ... else None`. -/
def diet_arg (e : EnrichedMealVariant) : Option String :=
  opt_nonempty (py_normalize (py_or_opt e.predicted_diet e.raw.diet))

def meal_type_arg (e : EnrichedMealVariant) : Option String :=
  opt_nonempty (py_normalize (py_or_opt e.predicted_course e.raw.course))

/-- `_normalize(", ".join(enriched.region_tags or [])) if enriched.region_tags
else None` (the conditional tests the list, not the normalized string). -/
def region_arg (e : EnrichedMealVariant) : Option String :=
  if e.region_tags = [] then none
  else some (py_normalize (some (String.intercalate (", ") e.region_tags)))

def rpc_args (e : EnrichedMealVariant) (k : Nat) : RpcArgs :=
  { query_text := query_name e, limit_n := k, diet_value := diet_arg e,
    meal_type_value := meal_type_arg e, region_value := region_arg e }

/-- `r.get("title_normalized") or normalize_title(r.get("title") or "")`. -/
def backfill_tn (tn : Option String) (title : String) : String :=
  match tn with
  | some t => if t = "" then normalize_title title else t
  | none => normalize_title title

def rpc_candidate (r : RpcRow) : Candidate :=
  { id := r.id, title := r.title,
    title_normalized := backfill_tn r.title_normalized r.title,
    score := r.score }

def fallback_candidate (r : MealRow) : Candidate :=
  { id := r.id, title := r.title,
    title_normalized := backfill_tn r.title_normalized r.title,
    score := none }

/-- `tokens = query.split(); token = tokens[0] if tokens else query`. -/
def first_token (e : EnrichedMealVariant) : String :=
  match (py_split_l (query_name e).toList).head? with
  | some t => String.mk t
  | none => query_name e

/-- `_find_candidate_meals`: RPC first (results filtered to truthy ids);
on exception, ILIKE on the first whitespace token of the normalized query
(`%token%`, limit k); empty token or a second exception give `[]`. -/
def find_candidate_meals {σ : Type} (C : Client σ) (e : EnrichedMealVariant)
    (s : σ) (k : Nat) : List Candidate × σ :=
  match C.rpc_search s (rpc_args e k) with
  | (Except.ok rows, s1) =>
    ((rows.map rpc_candidate).filter (fun c => c.id ≠ ""), s1)
  | (Except.error _, s1) =>
    if first_token e = "" then ([], s1)
    else
      match C.ilike_meals s1 (("%") ++ first_token e ++ ("%")) k with
      | (Except.ok rows, s2) => (rows.map fallback_candidate, s2)
      | (Except.error _, s2) => ([], s2)

/-- `float(cand.get("score") or 0.0)`. -/
def cand_rpc_val (c : Candidate) : ℚ := c.score.getD 0

/-- `_score_candidate`: empty-name guard, name blend (Score A), per-call
min-max relevance normalization (Score B) with the `denom <= 1e-9` early
return, final 0.55/0.45 blend clamped to [0, 1]. -/
def score_candidate (e : EnrichedMealVariant) (cand : Candidate)
    (min_rpc_score max_rpc_score : ℚ) : ℚ :=
  let q := query_name e
  let c := normalize_title (py_or_str cand.title_normalized cand.title)
  if q = "" || c = "" then 0
  else
    let ns := name_score q c
    let denom := max_rpc_score - min_rpc_score
    if denom ≤ eps_denom then 0
    else
      let x := (cand_rpc_val cand - min_rpc_score) / denom
      let rpc_norm := max 0 (min 1 x)
      max 0 (min 1 ((0.55 : ℚ) * ns + (0.45 : ℚ) * rpc_norm))

/-- The best-candidate loop of `_pick_best_candidate`: start from
`(None, -1.0)`, strictly better scores replace the current best. -/
def best_fold (f : Candidate → ℚ) (l : List Candidate)
    (acc : Option Candidate × ℚ) : Option Candidate × ℚ :=
  l.foldl (fun a c => if f c > a.2 then (some c, f c) else a) acc

/-- `min(rpc_scores)` over a nonempty candidate pool (0 on an empty one,
where `_pick_best_candidate` never computes it). -/
def pool_min : List Candidate → ℚ
  | [] => 0
  | c0 :: rest => (rest.map cand_rpc_val).foldl min (cand_rpc_val c0)

def pool_max : List Candidate → ℚ
  | [] => 0
  | c0 :: rest => (rest.map cand_rpc_val).foldl max (cand_rpc_val c0)

/-- The final score `_pick_best_candidate` assigns to a candidate of a pool. -/
def pool_score (e : EnrichedMealVariant) (cands : List Candidate)
    (c : Candidate) : ℚ :=
  score_candidate e c (pool_min cands) (pool_max cands)

/-- `_pick_best_candidate`: `(None, 0.0)` on an empty pool, otherwise the
scan with per-call min/max rpc scores. -/
def pick_best_candidate (e : EnrichedMealVariant) (candidates : List Candidate) :
    Option Candidate × ℚ :=
  match candidates with
  | [] => (none, 0)
  | c0 :: rest =>
    best_fold (pool_score e (c0 :: rest)) (c0 :: rest) (none, -1)

def meal_payload (e : EnrichedMealVariant) : MealPayload :=
  { title := py_or_str e.canonical_name e.raw.name,
    source := "dataset",
    external_source := e.raw.source_type,
    external_id := e.raw.source_id,
    language_code := py_or_str e.raw.language_code ("en"),
    is_canonical := true,
    canonical_meal_id := none,
    embedding := e.embedding }

def variant_payload (e : EnrichedMealVariant) (meal_id : String)
    (needs_review : Bool) : VariantPayload :=
  { meal_id := meal_id,
    source_type := e.raw.source_type,
    source_id := e.raw.source_id,
    title_original := e.raw.name,
    course := py_or_opt e.predicted_course e.raw.course,
    diet := py_or_opt e.predicted_diet e.raw.diet,
    needs_review := needs_review,
    embedding := e.embedding,
    tag_candidates := serialize_tag_candidates e.tag_candidates }

/-- `_insert_new_canonical`: one insert; on success `rows[0]["id"]`, on any
exception (including empty `resp.data`, whose indexing raises inside the
`try`) the logged placeholder `""`. -/
def insert_new_canonical {σ : Type} (C : Client σ) (e : EnrichedMealVariant)
    (s : σ) : String × σ :=
  match C.insert_meal s (meal_payload e) with
  | (Except.ok rows, s1) =>
    match rows.head? with
    | some row => (row.id, s1)
    | none => ("", s1)
  | (Except.error _, s1) => ("", s1)

def conflict_key : String := "source_type,source_id"

/-- `_upsert_variant`: one upsert keyed on `source_type,source_id`; on
success `rows[0]["id"]`, on any exception the placeholder `""`. -/
def upsert_variant {σ : Type} (C : Client σ) (meal_id : String)
    (e : EnrichedMealVariant) (needs_review : Bool) (s : σ) : String × σ :=
  match C.upsert_variant_row s (variant_payload e meal_id needs_review)
      conflict_key with
  | (Except.ok rows, s1) =>
    match rows.head? with
    | some row => (row.id, s1)
    | none => ("", s1)
  | (Except.error _, s1) => ("", s1)

/-- Steps 4–6 of `upsert_meal`: variant upsert, synonym/tag side writes,
and the returned triple. -/
def brain_finish {σ : Type} (C : Client σ) (e : EnrichedMealVariant)
    (meal_id status : String) (needs_review : Bool) (s : σ) :
    (String × String × String) × σ :=
  match upsert_variant C meal_id e needs_review s with
  | (variant_id, s3) =>
    ((meal_id, variant_id, status), C.side_writes s3 meal_id e)

/-- `upsert_meal`: idempotency shortcut, candidate retrieval, best-candidate
scoring, the two-threshold decision, then persistence. -/
def upsert_meal {σ : Type} (C : Client σ) (e : EnrichedMealVariant) (s : σ) :
    (String × String × String) × σ :=
  match get_existing_variant C e s with
  | (some existing, s0) =>
    ((existing.meal_id, existing.id, "existing_variant"), s0)
  | (none, s0) =>
    match find_candidate_meals C e s0 20 with
    | (candidates, s1) =>
      match pick_best_candidate e candidates with
      | (best, best_score) =>
        match best with
        | some b =>
          if best_score ≥ T_SAME then
            brain_finish C e b.id "attached_as_variant" false s1
          else if best_score ≥ T_MAYBE then
            brain_finish C e b.id "needs_review" true s1
          else
            match insert_new_canonical C e s1 with
            | (meal_id, s2) => brain_finish C e meal_id "new_canonical" true s2
        | none =>
          match insert_new_canonical C e s1 with
          | (meal_id, s2) => brain_finish C e meal_id "new_canonical" true s2

/-! ## A request-tracing scripted client

State is the list of issued requests; each operation returns a fixed
response and appends its request, so single-call behaviour under any store
responses (including raised exceptions) is observable. -/

inductive Req where
  | select_variant (source_type source_id : String)
  | rpc_search (args : RpcArgs)
  | ilike_meals (pattern : String) (limit : Nat)
  | insert_meal (payload : MealPayload)
  | upsert_variant (payload : VariantPayload) (on_conflict : String)
  | side_writes (meal_id : String)
deriving DecidableEq, Repr

structure Responses where
  variant_data : Except Unit (List VariantRef)
  rpc_data : Except Unit (List RpcRow)
  ilike_data : Except Unit (List MealRow)
  insert_data : Except Unit (List InsertedRow)
  upsert_data : Except Unit (List InsertedRow)
deriving Repr

def scripted (R : Responses) : Client (List Req) :=
  { select_variant := fun s st sid => (R.variant_data, s ++ [Req.select_variant st sid]),
    rpc_search := fun s args => (R.rpc_data, s ++ [Req.rpc_search args]),
    ilike_meals := fun s pat k => (R.ilike_data, s ++ [Req.ilike_meals pat k]),
    insert_meal := fun s p => (R.insert_data, s ++ [Req.insert_meal p]),
    upsert_variant_row := fun s p oc => (R.upsert_data, s ++ [Req.upsert_variant p oc]),
    side_writes := fun s mid _ => s ++ [Req.side_writes mid] }

/-- Count the insert-canonical write attempts in a trace. -/
def count_inserts (tr : List Req) : Nat :=
  (tr.filter (fun r => match r with
    | Req.insert_meal _ => true
    | _ => false)).length

/-! ## A concrete in-memory store

Happy-path semantics of the tables `upsert_meal` writes and reads back:
`meal_variants` honours the `(source_type, source_id)` unique key (upsert
updates in place), inserts return fresh ids.  The indexed search and the
ILIKE scan are abstract read-only functions of the store.  `lookup_fails`
injects an exception into the idempotency lookup only. -/

structure StoreVariant where
  id : String
  meal_id : String
  source_type : String
  source_id : String
  needs_review : Bool
deriving DecidableEq, Repr

structure StoreMeal where
  id : String
  title : String
deriving DecidableEq, Repr

structure Store where
  meals : List StoreMeal
  variants : List StoreVariant
  next_id : Nat
deriving DecidableEq, Repr

def variant_matches (st sid : String) (v : StoreVariant) : Bool :=
  v.source_type = st && v.source_id = sid

/-- Conflict-key update: refresh the content of the first row with the
payload's key, keeping its id. -/
def store_update_variant : List StoreVariant → VariantPayload → List StoreVariant
  | [], _ => []
  | v :: vs, p =>
    if variant_matches p.source_type p.source_id v then
      { v with meal_id := p.meal_id, needs_review := p.needs_review } :: vs
    else v :: store_update_variant vs p

def store_client (lookup_fails : Bool)
    (rpc_impl : Store → RpcArgs → Except Unit (List RpcRow))
    (scan_impl : Store → String → Nat → List MealRow) : Client Store :=
  { select_variant := fun s st sid =>
      (if lookup_fails then Except.error ()
       else Except.ok (((s.variants.filter (variant_matches st sid)).take 1).map
         (fun v => { id := v.id, meal_id := v.meal_id })), s),
    rpc_search := fun s args => (rpc_impl s args, s),
    ilike_meals := fun s pat k => (Except.ok (scan_impl s pat k), s),
    insert_meal := fun s p =>
      (Except.ok [{ id := toString s.next_id }],
       { s with meals := s.meals ++ [{ id := toString s.next_id, title := p.title }],
                next_id := s.next_id + 1 }),
    upsert_variant_row := fun s p _ =>
      match (s.variants.filter (variant_matches p.source_type p.source_id)).head? with
      | some v =>
        (Except.ok [{ id := v.id }],
         { s with variants := store_update_variant s.variants p })
      | none =>
        (Except.ok [{ id := toString s.next_id }],
         { s with
             variants := s.variants ++
               [{ id := toString s.next_id, meal_id := p.meal_id,
                  source_type := p.source_type, source_id := p.source_id,
                  needs_review := p.needs_review }],
             next_id := s.next_id + 1 }),
    side_writes := fun s _ _ => s }

/-! ## The (tag_type, value) merge of `nlp_tags_for_recipe`

Step 3 of `RecipeNLP.nlp_tags_for_recipe` (nlp_tagging.py): an
insertion-ordered dict keyed by the exact `(cand.tag_type, cand.value)`
pair; an entry is replaced (in place) only by a strictly higher confidence. -/

def tag_key (c : TagCandidate) : String × String := (c.tag_type, c.value)

def merged_upd : List ((String × String) × TagCandidate) → TagCandidate →
    List ((String × String) × TagCandidate)
  | [], c => [(tag_key c, c)]
  | (k, e0) :: rest, c =>
    if k = tag_key c then
      (k, if c.confidence > e0.confidence then c else e0) :: rest
    else (k, e0) :: merged_upd rest c

def merge_nlp_tags (cands : List TagCandidate) : List TagCandidate :=
  (cands.foldl merged_upd []).map (fun kv => kv.2)

/-! ## Helper lemmas about the pipeline -/

theorem brain_finish_parts {σ : Type} (C : Client σ) (e : EnrichedMealVariant)
    (mid st : String) (nr : Bool) (s : σ) :
    (brain_finish C e mid st nr s).1.1 = mid ∧
    (brain_finish C e mid st nr s).1.2.2 = st := by
  unfold brain_finish
  rcases hv : upsert_variant C mid e nr s with ⟨vid, s3⟩
  exact ⟨rfl, rfl⟩

theorem upsert_meal_existing {σ : Type} (C : Client σ) (e : EnrichedMealVariant)
    (s : σ) (ex : VariantRef) (s0 : σ)
    (h : get_existing_variant C e s = (some ex, s0)) :
    upsert_meal C e s = ((ex.meal_id, ex.id, "existing_variant"), s0) := by
  unfold upsert_meal
  rw [h]

theorem upsert_meal_attach {σ : Type} (C : Client σ) (e : EnrichedMealVariant)
    (s s0 s1 : σ) (cands : List Candidate) (b : Candidate) (sc : ℚ)
    (hlook : get_existing_variant C e s = (none, s0))
    (hfind : find_candidate_meals C e s0 20 = (cands, s1))
    (hpick : pick_best_candidate e cands = (some b, sc))
    (hsc : sc ≥ T_SAME) :
    upsert_meal C e s = brain_finish C e b.id "attached_as_variant" false s1 := by
  unfold upsert_meal
  rw [hlook]
  dsimp only
  rw [hfind]
  dsimp only
  rw [hpick]
  dsimp only
  rw [if_pos hsc]

theorem upsert_meal_review {σ : Type} (C : Client σ) (e : EnrichedMealVariant)
    (s s0 s1 : σ) (cands : List Candidate) (b : Candidate) (sc : ℚ)
    (hlook : get_existing_variant C e s = (none, s0))
    (hfind : find_candidate_meals C e s0 20 = (cands, s1))
    (hpick : pick_best_candidate e cands = (some b, sc))
    (hs1 : ¬ sc ≥ T_SAME) (hs2 : sc ≥ T_MAYBE) :
    upsert_meal C e s = brain_finish C e b.id "needs_review" true s1 := by
  unfold upsert_meal
  rw [hlook]
  dsimp only
  rw [hfind]
  dsimp only
  rw [hpick]
  dsimp only
  rw [if_neg hs1, if_pos hs2]

theorem upsert_meal_newc_some {σ : Type} (C : Client σ) (e : EnrichedMealVariant)
    (s s0 s1 : σ) (cands : List Candidate) (b : Candidate) (sc : ℚ)
    (hlook : get_existing_variant C e s = (none, s0))
    (hfind : find_candidate_meals C e s0 20 = (cands, s1))
    (hpick : pick_best_candidate e cands = (some b, sc))
    (hs1 : ¬ sc ≥ T_SAME) (hs2 : ¬ sc ≥ T_MAYBE) :
    upsert_meal C e s =
      brain_finish C e (insert_new_canonical C e s1).1 "new_canonical" true
        (insert_new_canonical C e s1).2 := by
  unfold upsert_meal
  rw [hlook]
  dsimp only
  rw [hfind]
  dsimp only
  rw [hpick]
  dsimp only
  rw [if_neg hs1, if_neg hs2]

theorem upsert_meal_newc_none {σ : Type} (C : Client σ) (e : EnrichedMealVariant)
    (s s0 s1 : σ) (cands : List Candidate) (sc : ℚ)
    (hlook : get_existing_variant C e s = (none, s0))
    (hfind : find_candidate_meals C e s0 20 = (cands, s1))
    (hpick : pick_best_candidate e cands = (none, sc)) :
    upsert_meal C e s =
      brain_finish C e (insert_new_canonical C e s1).1 "new_canonical" true
        (insert_new_canonical C e s1).2 := by
  unfold upsert_meal
  rw [hlook]
  dsimp only
  rw [hfind]
  dsimp only
  rw [hpick]

theorem best_fold_fixed (f : Candidate → ℚ) (l : List Candidate)
    (acc : Option Candidate × ℚ) (h : ∀ c ∈ l, ¬ f c > acc.2) :
    best_fold f l acc = acc := by
  induction l with
  | nil => rfl
  | cons c cs ih =>
    unfold best_fold
    simp only [List.foldl_cons]
    rw [if_neg (h c (by simp))]
    exact ih (fun d hd => h d (by simp [hd]))

/-- The loop of `_pick_best_candidate` returns the first candidate attaining
the maximal score (among those beating the accumulator), all later scores
being no larger. -/
theorem best_fold_decomp (f : Candidate → ℚ) (l : List Candidate)
    (acc : Option Candidate × ℚ) :
    (best_fold f l acc = acc ∧ ∀ c ∈ l, f c ≤ acc.2) ∨
    (∃ l1 c l2, l = l1 ++ c :: l2 ∧
      best_fold f l acc = (some c, f c) ∧ f c > acc.2 ∧
      (∀ d ∈ l1, f d < f c) ∧ (∀ d ∈ l2, f d ≤ f c)) := by
  induction l generalizing acc with
  | nil =>
    left
    exact ⟨rfl, by simp⟩
  | cons x xs ih =>
    by_cases hx : f x > acc.2
    · have hstep : best_fold f (x :: xs) acc = best_fold f xs (some x, f x) := by
        unfold best_fold
        simp only [List.foldl_cons]
        rw [if_pos hx]
      rcases ih (some x, f x) with ⟨heq, hle⟩ | ⟨l1, c, l2, hdec, heq, hgt, hlt, hle⟩
      · right
        refine ⟨[], x, xs, by simp, ?_, hx, by simp, ?_⟩
        · rw [hstep, heq]
        · intro d hd
          simpa using hle d hd
      · right
        have hgt2 : f x < f c := hgt
        refine ⟨x :: l1, c, l2, by simp [hdec], ?_, lt_trans hx hgt2, ?_, hle⟩
        · rw [hstep, heq]
        · intro d hd
          rcases List.mem_cons.mp hd with h | h
          · subst h
            exact hgt2
          · exact hlt d h
    · have hstep : best_fold f (x :: xs) acc = best_fold f xs acc := by
        unfold best_fold
        simp only [List.foldl_cons]
        rw [if_neg hx]
      rcases ih acc with ⟨heq, hle⟩ | ⟨l1, c, l2, hdec, heq, hgt, hlt, hle⟩
      · left
        refine ⟨by rw [hstep, heq], ?_⟩
        intro d hd
        rcases List.mem_cons.mp hd with h | h
        · subst h
          exact not_lt.mp hx
        · exact hle d h
      · right
        refine ⟨x :: l1, c, l2, by simp [hdec], by rw [hstep, heq], hgt, ?_, hle⟩
        intro d hd
        rcases List.mem_cons.mp hd with h | h
        · subst h
          exact lt_of_le_of_lt (not_lt.mp hx) hgt
        · exact hlt d h

theorem score_candidate_nonneg (e : EnrichedMealVariant) (cand : Candidate)
    (minS maxS : ℚ) : 0 ≤ score_candidate e cand minS maxS := by
  simp only [score_candidate]
  split
  · exact le_refl 0
  · split
    · exact le_refl 0
    · exact le_max_left 0 _

/-! ## Behaviour of the pipeline over the concrete store -/

theorem store_lookup_found (rpc_impl : Store → RpcArgs → Except Unit (List RpcRow))
    (scan_impl : Store → String → Nat → List MealRow)
    (e : EnrichedMealVariant) (s : Store) (v : StoreVariant) (tl : List StoreVariant)
    (h : s.variants.filter (variant_matches e.raw.source_type e.raw.source_id) = v :: tl) :
    get_existing_variant (store_client false rpc_impl scan_impl) e s =
      (some { id := v.id, meal_id := v.meal_id }, s) := by
  unfold get_existing_variant store_client
  dsimp only
  rw [h]
  rfl

theorem store_lookup_none_eq (lf : Bool)
    (rpc_impl : Store → RpcArgs → Except Unit (List RpcRow))
    (scan_impl : Store → String → Nat → List MealRow)
    (e : EnrichedMealVariant) (s : Store)
    (h : s.variants.filter (variant_matches e.raw.source_type e.raw.source_id) = []) :
    get_existing_variant (store_client lf rpc_impl scan_impl) e s = (none, s) := by
  unfold get_existing_variant store_client
  cases lf with
  | true => rfl
  | false =>
    dsimp only
    rw [h]
    rfl

theorem store_find_state (lf : Bool)
    (rpc_impl : Store → RpcArgs → Except Unit (List RpcRow))
    (scan_impl : Store → String → Nat → List MealRow)
    (e : EnrichedMealVariant) (s : Store) (k : Nat) :
    (find_candidate_meals (store_client lf rpc_impl scan_impl) e s k).2 = s := by
  unfold find_candidate_meals store_client
  dsimp only
  cases hrpc : rpc_impl s (rpc_args e k) with
  | ok rows => rfl
  | error u =>
    dsimp only
    split
    · rfl
    · rfl

theorem store_insert_parts (lf : Bool)
    (rpc_impl : Store → RpcArgs → Except Unit (List RpcRow))
    (scan_impl : Store → String → Nat → List MealRow)
    (e : EnrichedMealVariant) (s : Store) :
    insert_new_canonical (store_client lf rpc_impl scan_impl) e s =
      (toString s.next_id,
       { s with meals := s.meals ++ [{ id := toString s.next_id,
                                       title := (meal_payload e).title }],
                next_id := s.next_id + 1 }) := by
  rfl

theorem store_brain_finish_append (lf : Bool)
    (rpc_impl : Store → RpcArgs → Except Unit (List RpcRow))
    (scan_impl : Store → String → Nat → List MealRow)
    (e : EnrichedMealVariant) (mid st' : String) (nr : Bool) (s : Store)
    (h : s.variants.filter (variant_matches e.raw.source_type e.raw.source_id) = []) :
    brain_finish (store_client lf rpc_impl scan_impl) e mid st' nr s =
      ((mid, toString s.next_id, st'),
       { s with
           variants := s.variants ++
             [{ id := toString s.next_id, meal_id := mid,
                source_type := e.raw.source_type, source_id := e.raw.source_id,
                needs_review := nr }],
           next_id := s.next_id + 1 }) := by
  unfold brain_finish upsert_variant store_client
  dsimp only
  rw [show (variant_payload e mid nr).source_type = e.raw.source_type from rfl,
    show (variant_payload e mid nr).source_id = e.raw.source_id from rfl, h]
  rfl

/-- One `upsert_meal` run on the concrete store either replays an existing
variant without writes, or ends in a state whose variant table gained exactly
the upserted row for the enriched record's source key. -/
theorem store_run_spec (rpc_impl : Store → RpcArgs → Except Unit (List RpcRow))
    (scan_impl : Store → String → Nat → List MealRow)
    (e : EnrichedMealVariant) (s : Store) :
    (∃ v tl, s.variants.filter (variant_matches e.raw.source_type e.raw.source_id) = v :: tl ∧
       upsert_meal (store_client false rpc_impl scan_impl) e s =
         ((v.meal_id, v.id, "existing_variant"), s)) ∨
    (∃ (nr : Bool) (mid st' : String) (s1 : Store),
       s.variants.filter (variant_matches e.raw.source_type e.raw.source_id) = [] ∧
       s1.variants = s.variants ∧
       upsert_meal (store_client false rpc_impl scan_impl) e s =
         ((mid, toString s1.next_id, st'),
          { s1 with
              variants := s1.variants ++
                [{ id := toString s1.next_id, meal_id := mid,
                   source_type := e.raw.source_type, source_id := e.raw.source_id,
                   needs_review := nr }],
              next_id := s1.next_id + 1 })) := by
  cases hfil : s.variants.filter (variant_matches e.raw.source_type e.raw.source_id) with
  | cons v tl =>
    left
    refine ⟨v, tl, rfl, ?_⟩
    exact upsert_meal_existing _ e s _ s
      (store_lookup_found rpc_impl scan_impl e s v tl hfil)
  | nil =>
    right
    have hlook := store_lookup_none_eq false rpc_impl scan_impl e s hfil
    rcases hfind : find_candidate_meals (store_client false rpc_impl scan_impl) e s 20
      with ⟨cands, s1⟩
    have hs1 : s1 = s := by
      have := store_find_state false rpc_impl scan_impl e s 20
      rw [hfind] at this
      exact this
    rw [hs1] at hfind
    rcases hpick : pick_best_candidate e cands with ⟨b, sc⟩
    cases b with
    | some bc =>
      by_cases h1 : sc ≥ T_SAME
      · refine ⟨false, bc.id, "attached_as_variant", s, rfl, rfl, ?_⟩
        rw [upsert_meal_attach _ e s s s cands bc sc hlook hfind hpick h1]
        exact store_brain_finish_append false rpc_impl scan_impl e bc.id
          "attached_as_variant" false s hfil
      · by_cases h2 : sc ≥ T_MAYBE
        · refine ⟨true, bc.id, "needs_review", s, rfl, rfl, ?_⟩
          rw [upsert_meal_review _ e s s s cands bc sc hlook hfind hpick h1 h2]
          exact store_brain_finish_append false rpc_impl scan_impl e bc.id
            "needs_review" true s hfil
        · rw [upsert_meal_newc_some _ e s s s cands bc sc hlook hfind hpick h1 h2]
          rw [store_insert_parts false rpc_impl scan_impl e s]
          refine ⟨true, toString s.next_id, "new_canonical",
            { s with meals := s.meals ++ [{ id := toString s.next_id,
                                            title := (meal_payload e).title }],
                     next_id := s.next_id + 1 }, rfl, rfl, ?_⟩
          exact store_brain_finish_append false rpc_impl scan_impl e _
            "new_canonical" true _ hfil
    | none =>
      rw [upsert_meal_newc_none _ e s s s cands sc hlook hfind hpick]
      rw [store_insert_parts false rpc_impl scan_impl e s]
      refine ⟨true, toString s.next_id, "new_canonical",
        { s with meals := s.meals ++ [{ id := toString s.next_id,
                                        title := (meal_payload e).title }],
                 next_id := s.next_id + 1 }, rfl, rfl, ?_⟩
      exact store_brain_finish_append false rpc_impl scan_impl e _
        "new_canonical" true _ hfil

/-! ## Witness fixtures (concrete records used to instantiate the claim
theorems on closed inputs) -/

def raw_w : RawMeal := { source_type := "datasetA", source_id := "17", name := "Chole" }

def enr_w : EnrichedMealVariant := { raw := raw_w, canonical_name := "chole" }

def cand_hi : Candidate :=
  { id := "m1", title := "chole", title_normalized := "chole", score := some 1 }

def cand_lo : Candidate :=
  { id := "m2", title := "xx", title_normalized := "xx", score := some 0 }

def rpc_rows_w : List RpcRow :=
  [{ id := "m1", title := "chole", title_normalized := some "chole", score := some 1 },
   { id := "m2", title := "xx", title_normalized := some "xx", score := some 0 }]

def resp_hi : Responses :=
  { variant_data := Except.ok [],
    rpc_data := Except.ok rpc_rows_w,
    ilike_data := Except.ok [],
    insert_data := Except.ok [{ id := "m9" }],
    upsert_data := Except.ok [{ id := "v9" }] }

def resp_exist : Responses :=
  { variant_data := Except.ok [{ id := "v0", meal_id := "m0" }],
    rpc_data := Except.ok [],
    ilike_data := Except.ok [],
    insert_data := Except.ok [{ id := "m9" }],
    upsert_data := Except.ok [{ id := "v9" }] }

/-! ## Claim theorems -/

/-- C1: for a record with no pre-existing Variant for its source key and a
best candidate with final score s: s ≥ T_SAME gives `attached_as_variant`
with the variant pointing at the existing canonical id and needs_review
false; T_MAYBE ≤ s < T_SAME gives `needs_review` with needs_review true;
s < T_MAYBE or an empty pool creates a new canonical entity with status
`new_canonical` and needs_review true; the call returns exactly one of the
four statuses and never `existing_variant` on this path. -/
theorem C1_threshold_decision {σ : Type} (C : Client σ) (e : EnrichedMealVariant)
    (s s0 s1 : σ) (cands : List Candidate) (b : Option Candidate) (sc : ℚ)
    (hlook : get_existing_variant C e s = (none, s0))
    (hfind : find_candidate_meals C e s0 20 = (cands, s1))
    (hpick : pick_best_candidate e cands = (b, sc)) :
    (∀ bc, b = some bc → sc ≥ T_SAME →
      upsert_meal C e s = brain_finish C e bc.id "attached_as_variant" false s1 ∧
      (upsert_meal C e s).1.1 = bc.id ∧
      (upsert_meal C e s).1.2.2 = "attached_as_variant" ∧
      (variant_payload e bc.id false).meal_id = bc.id ∧
      (variant_payload e bc.id false).needs_review = false) ∧
    (∀ bc, b = some bc → ¬ sc ≥ T_SAME → sc ≥ T_MAYBE →
      upsert_meal C e s = brain_finish C e bc.id "needs_review" true s1 ∧
      (upsert_meal C e s).1.1 = bc.id ∧
      (upsert_meal C e s).1.2.2 = "needs_review" ∧
      (variant_payload e bc.id true).needs_review = true) ∧
    (¬ sc ≥ T_MAYBE ∨ b = none →
      upsert_meal C e s =
        brain_finish C e (insert_new_canonical C e s1).1 "new_canonical" true
          (insert_new_canonical C e s1).2 ∧
      (upsert_meal C e s).1.2.2 = "new_canonical" ∧
      (variant_payload e (insert_new_canonical C e s1).1 true).needs_review = true) ∧
    ((upsert_meal C e s).1.2.2 = "attached_as_variant" ∨
     (upsert_meal C e s).1.2.2 = "needs_review" ∨
     (upsert_meal C e s).1.2.2 = "new_canonical") ∧
    (upsert_meal C e s).1.2.2 ≠ "existing_variant" := by
  have hmaybe_same : T_MAYBE ≤ T_SAME := by norm_num [T_MAYBE, T_SAME]
  have attach_case : ∀ bc, b = some bc → sc ≥ T_SAME →
      upsert_meal C e s = brain_finish C e bc.id "attached_as_variant" false s1 := by
    intro bc hb hsc
    subst hb
    exact upsert_meal_attach C e s s0 s1 cands bc sc hlook hfind hpick hsc
  have review_case : ∀ bc, b = some bc → ¬ sc ≥ T_SAME → sc ≥ T_MAYBE →
      upsert_meal C e s = brain_finish C e bc.id "needs_review" true s1 := by
    intro bc hb h1 h2
    subst hb
    exact upsert_meal_review C e s s0 s1 cands bc sc hlook hfind hpick h1 h2
  have newc_case : ¬ sc ≥ T_MAYBE ∨ b = none →
      upsert_meal C e s =
        brain_finish C e (insert_new_canonical C e s1).1 "new_canonical" true
          (insert_new_canonical C e s1).2 := by
    intro h
    cases hb : b with
    | none => exact upsert_meal_newc_none C e s s0 s1 cands sc hlook hfind (hb ▸ hpick)
    | some bc =>
      rcases h with h | h
      · have h1 : ¬ sc ≥ T_SAME := fun hs => h (le_trans hmaybe_same hs)
        exact upsert_meal_newc_some C e s s0 s1 cands bc sc hlook hfind
          (hb ▸ hpick) h1 h
      · exact absurd (hb ▸ h) (by simp)
  have status_cases :
      (upsert_meal C e s).1.2.2 = "attached_as_variant" ∨
      (upsert_meal C e s).1.2.2 = "needs_review" ∨
      (upsert_meal C e s).1.2.2 = "new_canonical" := by
    cases hb : b with
    | none =>
      right; right
      rw [newc_case (Or.inr hb)]
      exact (brain_finish_parts C e _ "new_canonical" true _).2
    | some bc =>
      by_cases h1 : sc ≥ T_SAME
      · left
        rw [attach_case bc hb h1]
        exact (brain_finish_parts C e _ "attached_as_variant" false _).2
      · by_cases h2 : sc ≥ T_MAYBE
        · right; left
          rw [review_case bc hb h1 h2]
          exact (brain_finish_parts C e _ "needs_review" true _).2
        · right; right
          rw [newc_case (Or.inl h2)]
          exact (brain_finish_parts C e _ "new_canonical" true _).2
  refine ⟨?_, ?_, ?_, status_cases, ?_⟩
  · intro bc hb hsc
    have heq := attach_case bc hb hsc
    exact ⟨heq, by rw [heq]; exact (brain_finish_parts C e _ _ _ _).1,
      by rw [heq]; exact (brain_finish_parts C e _ _ _ _).2, rfl, rfl⟩
  · intro bc hb h1 h2
    have heq := review_case bc hb h1 h2
    exact ⟨heq, by rw [heq]; exact (brain_finish_parts C e _ _ _ _).1,
      by rw [heq]; exact (brain_finish_parts C e _ _ _ _).2, rfl⟩
  · intro h
    have heq := newc_case h
    exact ⟨heq, by rw [heq]; exact (brain_finish_parts C e _ _ _ _).2, rfl⟩
  · rcases status_cases with h | h | h <;> (rw [h]; decide)

theorem C1_witness :
    (upsert_meal (scripted resp_hi) enr_w []).1.2.2 = "attached_as_variant" ∧
    (upsert_meal (scripted resp_hi) enr_w []).1.1 = "m1" := by
  have h := C1_threshold_decision (scripted resp_hi) enr_w []
    [Req.select_variant ("datasetA") ("17")]
    [Req.select_variant ("datasetA") ("17"), Req.rpc_search (rpc_args enr_w 20)]
    [cand_hi, cand_lo] (some cand_hi) 1 (by with_unfolding_all rfl)
    (by with_unfolding_all rfl) (by with_unfolding_all rfl)
  have h2 := h.1 cand_hi rfl (by norm_num [T_SAME])
  exact ⟨h2.2.2.1, h2.2.1⟩

/-- C2: a record whose (source-type, source-identifier) already has a
Variant returns that Variant's ids with status `existing_variant` and the
post-lookup client state — no retrieval, scoring or writes follow; and over
the in-memory store, ingesting the same record twice returns the same
canonical and variant ids, the second call reporting `existing_variant` and
leaving the store untouched. -/
theorem C2_idempotent_replay :
    (∀ (σ : Type) (C : Client σ) (e : EnrichedMealVariant) (s : σ)
       (ex : VariantRef) (rest : List VariantRef) (s0 : σ),
       C.select_variant s e.raw.source_type e.raw.source_id =
         (Except.ok (ex :: rest), s0) →
       upsert_meal C e s = ((ex.meal_id, ex.id, "existing_variant"), s0)) ∧
    (∀ (rpc_impl : Store → RpcArgs → Except Unit (List RpcRow))
       (scan_impl : Store → String → Nat → List MealRow)
       (e : EnrichedMealVariant) (s : Store),
       upsert_meal (store_client false rpc_impl scan_impl) e
           (upsert_meal (store_client false rpc_impl scan_impl) e s).2 =
         (((upsert_meal (store_client false rpc_impl scan_impl) e s).1.1,
           (upsert_meal (store_client false rpc_impl scan_impl) e s).1.2.1,
           "existing_variant"),
          (upsert_meal (store_client false rpc_impl scan_impl) e s).2)) := by
  constructor
  · intro σ C e s ex rest s0 h
    apply upsert_meal_existing
    unfold get_existing_variant
    rw [h]
    rfl
  · intro rpc_impl scan_impl e s
    rcases store_run_spec rpc_impl scan_impl e s with
      ⟨v, tl, hfil, hrun⟩ | ⟨nr, mid, st', s1, hfil, hvars, hrun⟩
    · rw [hrun]
      exact upsert_meal_existing _ e s _ s
        (store_lookup_found rpc_impl scan_impl e s v tl hfil)
    · rw [hrun]
      have hfil2 :
          ({ s1 with
              variants := s1.variants ++
                [{ id := toString s1.next_id, meal_id := mid,
                   source_type := e.raw.source_type, source_id := e.raw.source_id,
                   needs_review := nr }],
              next_id := s1.next_id + 1 } : Store).variants.filter
            (variant_matches e.raw.source_type e.raw.source_id) =
          ({ id := toString s1.next_id, meal_id := mid,
             source_type := e.raw.source_type, source_id := e.raw.source_id,
             needs_review := nr } : StoreVariant) :: [] := by
        dsimp only
        rw [List.filter_append, hvars, hfil]
        simp [variant_matches]
      exact upsert_meal_existing _ e _ _ _
        (store_lookup_found rpc_impl scan_impl e _ _ [] hfil2)

theorem C2_witness :
    upsert_meal (scripted resp_exist) enr_w [] =
      (("m0", "v0", "existing_variant"),
       [Req.select_variant ("datasetA") ("17")]) := by
  exact C2_idempotent_replay.1 (List Req) (scripted resp_exist) enr_w []
    { id := "v0", meal_id := "m0" } [] [Req.select_variant ("datasetA") ("17")] rfl

/-- C6: the name score is the 0.55/0.45 blend of token-set Jaccard and
character-level sequence-alignment ratio (difflib with its default autojunk
heuristic) over the two normalized names; it is 0 when either normalizes to
the empty string, and exactly 1 for two names identical (and nonempty) after
normalization — also beyond the 200-character autojunk threshold, because
the seed found on the main diagonal (or the empty seed when every character
is popular) is extended over plain character equality to the whole string. -/
theorem C6_name_score_blend :
    (∀ a b : String, normalize_title a = "" ∨ normalize_title b = "" →
      name_score (normalize_title a) (normalize_title b) = 0) ∧
    (∀ q c : String, q ≠ "" → c ≠ "" →
      name_score q c = (0.55 : ℚ) * jaccard q c + (0.45 : ℚ) * seq_ratio q c) ∧
    (∀ a b : String, normalize_title a = normalize_title b →
      normalize_title a ≠ "" →
      name_score (normalize_title a) (normalize_title b) = 1) := by
  refine ⟨?_, ?_, ?_⟩
  · intro a b h
    unfold name_score
    rcases h with h | h <;> simp [h]
  · intro q c hq hc
    unfold name_score
    rw [if_neg (by simp [hq, hc])]
  · intro a b heq hne
    exact name_score_self_norm a b heq hne

theorem C6_witness :
    name_score (normalize_title ("Paneer Butter Masala"))
      (normalize_title ("paneer butter masala")) = 1 ∧
    normalize_title ("Paneer Butter Masala") = "paneer butter masala" ∧
    200 ≤ (String.mk (List.replicate 200 ('a'))).toList.length ∧
    name_score (normalize_title (String.mk (List.replicate 200 ('a'))))
      (normalize_title (String.mk (List.replicate 200 ('a')))) = 1 := by
  refine ⟨C6_name_score_blend.2.2 ("Paneer Butter Masala") ("paneer butter masala")
    (by with_unfolding_all rfl) ?_, by with_unfolding_all rfl, by decide,
    C6_name_score_blend.2.2 (String.mk (List.replicate 200 ('a')))
      (String.mk (List.replicate 200 ('a'))) rfl (by decide)⟩
  intro h
  exact absurd h (by decide)

/-- C7: the retriever is total over every combination of store responses:
RPC success returns the mapped rows filtered to truthy ids; an RPC exception
falls back to an ILIKE scan on `%token%` (token = first whitespace token of
the normalized name) with limit k, whose rows carry no relevance score; an
empty token or a second exception yields the empty list. -/
theorem C7_retriever_fallback {σ : Type} (C : Client σ) (e : EnrichedMealVariant)
    (s : σ) (k : Nat) :
    (∀ rows s1, C.rpc_search s (rpc_args e k) = (Except.ok rows, s1) →
      find_candidate_meals C e s k =
        ((rows.map rpc_candidate).filter (fun c => c.id ≠ ""), s1)) ∧
    (∀ s1, C.rpc_search s (rpc_args e k) = (Except.error (), s1) →
      (first_token e = "" → find_candidate_meals C e s k = ([], s1)) ∧
      (first_token e ≠ "" →
        (∀ rows s2, C.ilike_meals s1 (("%") ++ first_token e ++ ("%")) k =
            (Except.ok rows, s2) →
          find_candidate_meals C e s k = (rows.map fallback_candidate, s2)) ∧
        (∀ s2, C.ilike_meals s1 (("%") ++ first_token e ++ ("%")) k =
            (Except.error (), s2) →
          find_candidate_meals C e s k = ([], s2)))) ∧
    (∀ r : MealRow, (fallback_candidate r).score = none) := by
  refine ⟨?_, ?_, fun r => rfl⟩
  · intro rows s1 h
    unfold find_candidate_meals
    rw [h]
  · intro s1 h
    refine ⟨?_, ?_⟩
    · intro ht
      unfold find_candidate_meals
      rw [h]
      dsimp only
      rw [if_pos ht]
    · intro ht
      refine ⟨?_, ?_⟩
      · intro rows s2 h2
        unfold find_candidate_meals
        rw [h]
        dsimp only
        rw [if_neg ht, h2]
      · intro s2 h2
        unfold find_candidate_meals
        rw [h]
        dsimp only
        rw [if_neg ht, h2]

def resp_fail : Responses :=
  { variant_data := Except.ok [],
    rpc_data := Except.error (),
    ilike_data := Except.error (),
    insert_data := Except.error (),
    upsert_data := Except.error () }

theorem C7_witness :
    find_candidate_meals (scripted resp_fail) enr_w [] 20 =
      ([], [Req.rpc_search (rpc_args enr_w 20),
            Req.ilike_meals (("%") ++ first_token enr_w ++ ("%")) 20]) := by
  exact (((C7_retriever_fallback (scripted resp_fail) enr_w [] 20).2.1
      [Req.rpc_search (rpc_args enr_w 20)] rfl).2 (by decide)).2
    [Req.rpc_search (rpc_args enr_w 20),
     Req.ilike_meals (("%") ++ first_token enr_w ++ ("%")) 20] rfl

/-- When every candidate of a nonempty pool scores 0, the loop returns the
first candidate with score 0. -/
theorem pick_best_all_zero (e : EnrichedMealVariant) (c0 : Candidate)
    (rest : List Candidate)
    (hall : ∀ d, pool_score e (c0 :: rest) d = 0) :
    pick_best_candidate e (c0 :: rest) = (some c0, 0) := by
  have hstep : best_fold (pool_score e (c0 :: rest)) (c0 :: rest) (none, -1) =
      best_fold (pool_score e (c0 :: rest)) rest (some c0, 0) := by
    unfold best_fold
    simp only [List.foldl_cons]
    dsimp only
    rw [hall c0]
    rw [if_pos (by norm_num : (0 : ℚ) > -1)]
  show best_fold (pool_score e (c0 :: rest)) (c0 :: rest) (none, -1) = (some c0, 0)
  rw [hstep]
  refine best_fold_fixed _ rest (some c0, 0) ?_
  intro d _
  rw [hall d]
  norm_num

/-- C10: a record whose effective name normalizes to the empty string scores
0 against every candidate; with no existing Variant for its key it is always
resolved as `new_canonical`; and on the fallback retrieval path it yields an
empty candidate list with no ILIKE scan being issued (the returned state is
the post-RPC state). -/
theorem C10_empty_query (e : EnrichedMealVariant) (hq : query_name e = "") :
    (∀ cand minS maxS, score_candidate e cand minS maxS = 0) ∧
    (∀ (σ : Type) (C : Client σ) (s s0 : σ),
      get_existing_variant C e s = (none, s0) →
      (upsert_meal C e s).1.2.2 = "new_canonical") ∧
    (∀ (σ : Type) (C : Client σ) (s : σ) (k : Nat) (s1 : σ),
      C.rpc_search s (rpc_args e k) = (Except.error (), s1) →
      find_candidate_meals C e s k = ([], s1)) := by
  have hscore : ∀ cand minS maxS, score_candidate e cand minS maxS = 0 := by
    intro cand minS maxS
    simp [score_candidate, hq]
  have htok : first_token e = "" := by
    unfold first_token
    rw [hq]
    rfl
  refine ⟨hscore, ?_, ?_⟩
  · intro σ C s s0 hlook
    rcases hfind : find_candidate_meals C e s0 20 with ⟨cands, s1⟩
    cases cands with
    | nil =>
      rw [upsert_meal_newc_none C e s s0 s1 [] 0 hlook hfind rfl]
      exact (brain_finish_parts C e _ "new_canonical" true _).2
    | cons c0 rest =>
      have hall : ∀ d, pool_score e (c0 :: rest) d = 0 := fun d => hscore d _ _
      have hpick := pick_best_all_zero e c0 rest hall
      rw [upsert_meal_newc_some C e s s0 s1 (c0 :: rest) c0 0 hlook hfind hpick
        (by norm_num [T_SAME]) (by norm_num [T_MAYBE])]
      exact (brain_finish_parts C e _ "new_canonical" true _).2
  · intro σ C s k s1 h
    unfold find_candidate_meals
    rw [h]
    dsimp only
    rw [if_pos htok]

def enr_empty : EnrichedMealVariant :=
  { raw := { source_type := "s", source_id := "1", name := "" },
    canonical_name := "" }

theorem C10_witness :
    score_candidate enr_empty cand_hi 0 1 = 0 ∧
    (upsert_meal (scripted resp_hi) enr_empty []).1.2.2 = "new_canonical" ∧
    find_candidate_meals (scripted resp_fail) enr_empty [] 20 =
      ([], [Req.rpc_search (rpc_args enr_empty 20)]) := by
  have h := C10_empty_query enr_empty (by with_unfolding_all rfl)
  exact ⟨h.1 cand_hi 0 1,
    h.2.1 (List Req) (scripted resp_hi) [] [Req.select_variant ("s") ("1")] rfl,
    h.2.2 (List Req) (scripted resp_fail) [] 20
      [Req.rpc_search (rpc_args enr_empty 20)] rfl⟩

/-- C8: on a nonempty pool the selected best candidate is the first-seen
candidate attaining the maximal final score (stable under the retriever's
ordering); on the empty pool the result is (none, 0) and the record is
resolved as `new_canonical` with the freshly inserted canonical id,
regardless of any other field. -/
theorem C8_first_seen_max (e : EnrichedMealVariant) :
    (pick_best_candidate e [] = (none, 0) ∧
     ∀ (σ : Type) (C : Client σ) (s s0 s1 : σ),
       get_existing_variant C e s = (none, s0) →
       find_candidate_meals C e s0 20 = ([], s1) →
       (upsert_meal C e s).1.2.2 = "new_canonical" ∧
       (upsert_meal C e s).1.1 = (insert_new_canonical C e s1).1) ∧
    (∀ c0 rest, ∃ l1 bc l2,
      c0 :: rest = l1 ++ bc :: l2 ∧
      pick_best_candidate e (c0 :: rest) = (some bc, pool_score e (c0 :: rest) bc) ∧
      (∀ d ∈ c0 :: rest, pool_score e (c0 :: rest) d ≤ pool_score e (c0 :: rest) bc) ∧
      (∀ d ∈ l1, pool_score e (c0 :: rest) d < pool_score e (c0 :: rest) bc)) := by
  constructor
  · refine ⟨rfl, ?_⟩
    intro σ C s s0 s1 hlook hfind
    have heq := upsert_meal_newc_none C e s s0 s1 [] 0 hlook hfind rfl
    rw [heq]
    exact ⟨(brain_finish_parts C e _ "new_canonical" true _).2,
      (brain_finish_parts C e _ "new_canonical" true _).1⟩
  · intro c0 rest
    rcases best_fold_decomp (pool_score e (c0 :: rest)) (c0 :: rest) (none, -1) with
      ⟨-, hle⟩ | ⟨l1, bc, l2, hdec, heq, -, hlt, hle⟩
    · exfalso
      have h0 := hle c0 (by simp)
      have h1 := score_candidate_nonneg e c0 (pool_min (c0 :: rest)) (pool_max (c0 :: rest))
      have : pool_score e (c0 :: rest) c0 = score_candidate e c0
          (pool_min (c0 :: rest)) (pool_max (c0 :: rest)) := rfl
      rw [this] at h0
      have : ((none : Option Candidate), (-1 : ℚ)).2 = (-1 : ℚ) := rfl
      rw [this] at h0
      linarith
    · refine ⟨l1, bc, l2, hdec, heq, ?_, hlt⟩
      intro d hd
      rw [hdec] at hd
      rcases List.mem_append.mp hd with h | h
      · exact le_of_lt (hlt d h)
      · rcases List.mem_cons.mp h with h | h
        · subst h
          exact le_refl _
        · exact hle d h

def resp_empty : Responses :=
  { variant_data := Except.ok [],
    rpc_data := Except.ok [],
    ilike_data := Except.ok [],
    insert_data := Except.ok [{ id := "m7" }],
    upsert_data := Except.ok [{ id := "v7" }] }

theorem C8_witness :
    pick_best_candidate enr_w [] = (none, 0) ∧
    (upsert_meal (scripted resp_empty) enr_w []).1.2.2 = "new_canonical" ∧
    (upsert_meal (scripted resp_empty) enr_w []).1.1 = "m7" := by
  have h := (C8_first_seen_max enr_w).1
  have h2 := h.2 (List Req) (scripted resp_empty) []
    [Req.select_variant ("datasetA") ("17")]
    [Req.select_variant ("datasetA") ("17"), Req.rpc_search (rpc_args enr_w 20)]
    rfl rfl
  exact ⟨h.1, h2.1, by rw [h2.2]; rfl⟩

/-- C3 (amended): the relevance score is the per-call min-max normalization
of the candidate relevance, clamped to [0,1], and enters the final score as
0.55 × name + 0.45 × relevance clamped to [0,1] — but only when the spread
max − min exceeds the 1e-9 guard; when the spread is at most 1e-9 (in
particular when all candidates share the same raw relevance, e.g. the
whole fallback path) `_score_candidate` returns 0 outright, so an
equal-relevance pool selects the first candidate with best score 0, not
0.55 × name score. -/
theorem C3_relevance_normalization :
    (∀ (e : EnrichedMealVariant) (cand : Candidate) (minS maxS : ℚ),
      maxS - minS ≤ eps_denom → score_candidate e cand minS maxS = 0) ∧
    (∀ (e : EnrichedMealVariant) (cand : Candidate) (minS maxS : ℚ),
      ¬ (maxS - minS ≤ eps_denom) →
      query_name e ≠ "" →
      normalize_title (py_or_str cand.title_normalized cand.title) ≠ "" →
      score_candidate e cand minS maxS =
        max 0 (min 1 ((0.55 : ℚ) * name_score (query_name e)
            (normalize_title (py_or_str cand.title_normalized cand.title))
          + (0.45 : ℚ) * max 0 (min 1 ((cand_rpc_val cand - minS) / (maxS - minS)))))) ∧
    (∀ (e : EnrichedMealVariant) (c0 : Candidate) (rest : List Candidate),
      (∀ c ∈ c0 :: rest, cand_rpc_val c = cand_rpc_val c0) →
      pick_best_candidate e (c0 :: rest) = (some c0, 0)) := by
  have part1 : ∀ (e : EnrichedMealVariant) (cand : Candidate) (minS maxS : ℚ),
      maxS - minS ≤ eps_denom → score_candidate e cand minS maxS = 0 := by
    intro e cand minS maxS h
    simp [score_candidate, h]
  refine ⟨part1, ?_, ?_⟩
  · intro e cand minS maxS h hq hc
    simp only [score_candidate]
    rw [if_neg (by simp [hq, hc]), if_neg h]
  · intro e c0 rest hsame
    have fold_const : ∀ (f : ℚ → ℚ → ℚ), (∀ x, f x x = x) →
        ∀ (l : List ℚ) (v : ℚ), (∀ x ∈ l, x = v) → l.foldl f v = v := by
      intro f hf l
      induction l with
      | nil => intro v _; rfl
      | cons x xs ih =>
        intro v hx
        simp only [List.foldl_cons]
        rw [hx x (by simp), hf]
        exact ih v (fun y hy => hx y (by simp [hy]))
    have hvals : ∀ x ∈ rest.map cand_rpc_val, x = cand_rpc_val c0 := by
      intro x hx
      rcases List.mem_map.mp hx with ⟨c, hc, rfl⟩
      exact hsame c (by simp [hc])
    have hmin : pool_min (c0 :: rest) = cand_rpc_val c0 :=
      fold_const min min_self (rest.map cand_rpc_val) (cand_rpc_val c0) hvals
    have hmax : pool_max (c0 :: rest) = cand_rpc_val c0 :=
      fold_const max max_self (rest.map cand_rpc_val) (cand_rpc_val c0) hvals
    have hall : ∀ d, pool_score e (c0 :: rest) d = 0 := by
      intro d
      unfold pool_score
      rw [hmin, hmax]
      refine part1 e d _ _ ?_
      simp only [sub_self]
      norm_num [eps_denom]
    exact pick_best_all_zero e c0 rest hall

/-- C3 counterexample: a single-candidate pool (zero relevance spread) with
a perfectly matching name gets final score 0, although the claimed formula
0.55 × name + 0.45 × relevance (with relevance score 0) would give 0.55. -/
theorem C3_counterexample :
    pick_best_candidate enr_w [cand_hi] = (some cand_hi, 0) ∧
    name_score (query_name enr_w)
      (normalize_title (py_or_str cand_hi.title_normalized cand_hi.title)) = 1 ∧
    (0.55 : ℚ) * 1 + (0.45 : ℚ) * 0 ≠ 0 := by
  refine ⟨by with_unfolding_all rfl, by with_unfolding_all rfl, by norm_num⟩

theorem C3_witness :
    score_candidate enr_w cand_hi 1 1 = 0 ∧
    pick_best_candidate enr_w [cand_lo, cand_lo] = (some cand_lo, 0) := by
  refine ⟨C3_relevance_normalization.1 enr_w cand_hi 1 1 (by norm_num [eps_denom]), ?_⟩
  refine C3_relevance_normalization.2.2 enr_w cand_lo [cand_lo] ?_
  intro c hc
  rcases List.mem_cons.mp hc with h | h
  · rw [h]
  · rw [List.mem_singleton.mp h]

/-- C4 (amended): both write payloads carry the embedding field copied from
the enriched candidate (which is exactly why a not-yet-migrated embedding
column can make the write fail), yet when the store rejects a write (or
returns no row) `_insert_new_canonical` and `_upsert_variant` catch the
exception, make NO second attempt with the field omitted, and return the
empty-string placeholder id together with the state reached after the
single write attempt; `upsert_meal` then returns a normal-looking triple
containing the placeholder, surfacing no error. -/
theorem C4_write_failure_placeholder :
    (∀ (e : EnrichedMealVariant) (mid : String) (nr : Bool),
      (meal_payload e).embedding = e.embedding ∧
      (variant_payload e mid nr).embedding = e.embedding) ∧
    (∀ (σ : Type) (C : Client σ) (e : EnrichedMealVariant) (s s1 : σ),
      C.insert_meal s (meal_payload e) = (Except.error (), s1) →
      insert_new_canonical C e s = ("", s1)) ∧
    (∀ (σ : Type) (C : Client σ) (e : EnrichedMealVariant) (s s1 : σ),
      C.insert_meal s (meal_payload e) = (Except.ok [], s1) →
      insert_new_canonical C e s = ("", s1)) ∧
    (∀ (σ : Type) (C : Client σ) (mid : String) (e : EnrichedMealVariant)
       (nr : Bool) (s s1 : σ),
      C.upsert_variant_row s (variant_payload e mid nr) conflict_key =
        (Except.error (), s1) →
      upsert_variant C mid e nr s = ("", s1)) := by
  refine ⟨fun e mid nr => ⟨rfl, rfl⟩, ?_, ?_, ?_⟩
  · intro σ C e s s1 h
    unfold insert_new_canonical
    rw [h]
  · intro σ C e s s1 h
    unfold insert_new_canonical
    rw [h]
    rfl
  · intro σ C mid e nr s s1 h
    unfold upsert_variant
    rw [h]

/-- C4 counterexample: with a store rejecting every write, the code issues
exactly one canonical-insert attempt (no reduced-payload retry) and returns
the placeholder triple ("", "", "new_canonical") instead of surfacing a hard
error — the claimed retry-once-then-fail-loud behaviour does not exist. -/
theorem C4_counterexample :
    (upsert_meal (scripted resp_fail) enr_w []).1 = ("", "", "new_canonical") ∧
    count_inserts (upsert_meal (scripted resp_fail) enr_w []).2 = 1 := by
  constructor
  · with_unfolding_all rfl
  · with_unfolding_all rfl

theorem C4_witness :
    insert_new_canonical (scripted resp_fail) enr_w [] =
      ("", [Req.insert_meal (meal_payload enr_w)]) ∧
    upsert_variant (scripted resp_fail) ("mX") enr_w true [] =
      ("", [Req.upsert_variant (variant_payload enr_w ("mX") true) conflict_key]) := by
  exact ⟨C4_write_failure_placeholder.2.1 (List Req) (scripted resp_fail) enr_w [] _ rfl,
    C4_write_failure_placeholder.2.2.2 (List Req) (scripted resp_fail) ("mX") enr_w
      true [] _ rfl⟩

/-! ## Properties of the `nlp_tags_for_recipe` merge fold (C5) -/

/-- When no entry carries the candidate's key, the dict append adds it at
the end. -/
theorem merged_upd_no_key (acc : List ((String × String) × TagCandidate))
    (c : TagCandidate) (h : ∀ kv ∈ acc, kv.1 ≠ tag_key c) :
    merged_upd acc c = acc ++ [(tag_key c, c)] := by
  induction acc with
  | nil => rfl
  | cons kv rest ih =>
    obtain ⟨k, e0⟩ := kv
    unfold merged_upd
    rw [if_neg (h (k, e0) (by simp))]
    rw [ih (fun x hx => h x (by simp [hx]))]
    rfl

/-- When the key is present (first at the shown position), the dict update
replaces that value in place, keeping the stronger confidence. -/
theorem merged_upd_found (acc1 acc2 : List ((String × String) × TagCandidate))
    (k : String × String) (e0 c : TagCandidate)
    (hno1 : ∀ kv ∈ acc1, kv.1 ≠ tag_key c) (hk : k = tag_key c) :
    merged_upd (acc1 ++ (k, e0) :: acc2) c =
      acc1 ++ (k, if c.confidence > e0.confidence then c else e0) :: acc2 := by
  induction acc1 with
  | nil =>
    simp only [List.nil_append]
    unfold merged_upd
    rw [if_pos hk]
  | cons kv rest ih =>
    obtain ⟨k1, v1⟩ := kv
    show merged_upd ((k1, v1) :: (rest ++ (k, e0) :: acc2)) c = _
    unfold merged_upd
    rw [if_neg (hno1 (k1, v1) (by simp))]
    rw [ih (fun x hx => hno1 x (by simp [hx]))]
    rfl

theorem first_key_split (acc : List ((String × String) × TagCandidate))
    (key : String × String) (h : ∃ kv ∈ acc, kv.1 = key) :
    ∃ acc1 e0 acc2, acc = acc1 ++ (key, e0) :: acc2 ∧
      ∀ kv ∈ acc1, kv.1 ≠ key := by
  induction acc with
  | nil => simp at h
  | cons kv rest ih =>
    by_cases hk : kv.1 = key
    · obtain ⟨k0, v0⟩ := kv
      have hk2 : k0 = key := hk
      exact ⟨[], v0, rest, by rw [← hk2]; rfl, by simp⟩
    · obtain ⟨kv0, hkv0, hkey0⟩ := h
      rcases List.mem_cons.mp hkv0 with h0 | h0
      · subst h0
        exact absurd hkey0 hk
      · obtain ⟨acc1, e0, acc2, hdec, hno⟩ := ih ⟨kv0, h0, hkey0⟩
        refine ⟨kv :: acc1, e0, acc2, by simp [hdec], ?_⟩
        intro x hx
        rcases List.mem_cons.mp hx with h1 | h1
        · subst h1
          exact hk
        · exact hno x h1

/-- Combined invariant of the merge fold: keys are consistent and distinct,
every processed candidate's key is covered, and every stored value is the
first candidate attaining the maximum confidence of its key group. -/
def merge_inv (l : List TagCandidate)
    (acc : List ((String × String) × TagCandidate)) : Prop :=
  (∀ kv ∈ acc, kv.1 = tag_key kv.2) ∧
  (acc.map Prod.fst).Nodup ∧
  (∀ u ∈ l, ∃ kv ∈ acc, kv.1 = tag_key u) ∧
  (∀ kv ∈ acc, ∃ l1 l2, l = l1 ++ kv.2 :: l2 ∧
     (∀ u ∈ l1, tag_key u = kv.1 → u.confidence < kv.2.confidence) ∧
     (∀ u ∈ l, tag_key u = kv.1 → u.confidence ≤ kv.2.confidence))

theorem merge_inv_step (l : List TagCandidate)
    (acc : List ((String × String) × TagCandidate)) (c : TagCandidate)
    (h : merge_inv l acc) : merge_inv (l ++ [c]) (merged_upd acc c) := by
  obtain ⟨h1, h2, h3, h4⟩ := h
  by_cases hkey : ∃ kv ∈ acc, kv.1 = tag_key c
  · obtain ⟨acc1, e0, acc2, hdec, hno1⟩ := first_key_split acc (tag_key c) hkey
    have he0 : (tag_key c, e0) ∈ acc := by
      rw [hdec]
      simp
    have he0key : tag_key e0 = tag_key c := by
      have := h1 (tag_key c, e0) he0
      exact this.symm
    have hupd : merged_upd acc c =
        acc1 ++ (tag_key c, if c.confidence > e0.confidence then c else e0) :: acc2 := by
      rw [hdec]
      exact merged_upd_found acc1 acc2 (tag_key c) e0 c hno1 rfl
    -- entries of acc2 do not carry the key either, by key distinctness
    have hno2 : ∀ kv ∈ acc2, kv.1 ≠ tag_key c := by
      intro kv hkv heq
      have : ((acc1 ++ (tag_key c, e0) :: acc2).map Prod.fst).Nodup := by
        rw [← hdec]
        exact h2
      rw [List.map_append, List.map_cons] at this
      have hdisj := List.Nodup.not_mem (List.Nodup.of_append_right this)
      have hmem : kv.1 ∈ acc2.map Prod.fst := List.mem_map_of_mem Prod.fst hkv
      rw [heq] at hmem
      exact hdisj hmem
    constructor
    · -- key consistency
      intro kv hkv
      rw [hupd] at hkv
      rcases List.mem_append.mp hkv with hm | hm
      · exact h1 kv (by rw [hdec]; exact List.mem_append_left _ hm)
      · rcases List.mem_cons.mp hm with hm2 | hm2
        · subst hm2
          by_cases hc : c.confidence > e0.confidence
          · simp [hc]
          · simp [hc, he0key]
        · exact h1 kv (by rw [hdec]; exact List.mem_append_right _ (by simp [hm2]))
    refine ⟨?_, ?_, ?_⟩
    · -- keys unchanged
      have hkeys : (merged_upd acc c).map Prod.fst = acc.map Prod.fst := by
        rw [hupd, hdec]
        simp [List.map_append]
      rw [hkeys]
      exact h2
    · -- coverage
      intro u hu
      rcases List.mem_append.mp hu with hm | hm
      · obtain ⟨kv, hkv, hkvkey⟩ := h3 u hm
        rw [hdec] at hkv
        rcases List.mem_append.mp hkv with hm2 | hm2
        · exact ⟨kv, by rw [hupd]; exact List.mem_append_left _ hm2, hkvkey⟩
        · rcases List.mem_cons.mp hm2 with hm3 | hm3
          · refine ⟨(tag_key c, if c.confidence > e0.confidence then c else e0),
              by rw [hupd]; exact List.mem_append_right _ (by simp), ?_⟩
            rw [← hkvkey, hm3]
          · exact ⟨kv, by rw [hupd]; exact List.mem_append_right _ (by simp [hm3]), hkvkey⟩
      · have hm2 : u = c := by simpa using hm
        rw [hm2]
        exact ⟨(tag_key c, if c.confidence > e0.confidence then c else e0),
          by rw [hupd]; exact List.mem_append_right _ (by simp), rfl⟩
    · -- first-of-maxima
      intro kv hkv
      rw [hupd] at hkv
      have hside : kv ∈ acc1 ++ acc2 ∨
          kv = (tag_key c, if c.confidence > e0.confidence then c else e0) := by
        rcases List.mem_append.mp hkv with hm | hm
        · exact Or.inl (List.mem_append_left _ hm)
        · rcases List.mem_cons.mp hm with hm2 | hm2
          · exact Or.inr hm2
          · exact Or.inl (List.mem_append_right _ hm2)
      rcases hside with hm | hm
      · -- untouched entry; its key differs from tag_key c
        have hkvacc : kv ∈ acc := by
          rw [hdec]
          rcases List.mem_append.mp hm with hm2 | hm2
          · exact List.mem_append_left _ hm2
          · exact List.mem_append_right _ (by simp [hm2])
        have hkvne : kv.1 ≠ tag_key c := by
          rcases List.mem_append.mp hm with hm2 | hm2
          · exact hno1 kv hm2
          · exact hno2 kv hm2
        obtain ⟨l1, l2, hldec, hstrict, hglob⟩ := h4 kv hkvacc
        refine ⟨l1, l2 ++ [c], by simp [hldec], hstrict, ?_⟩
        intro u hu hukey
        rcases List.mem_append.mp hu with hm2 | hm2
        · exact hglob u hm2 hukey
        · have hm3 : u = c := by simpa using hm2
          rw [hm3] at hukey
          exact absurd hukey.symm hkvne
      · -- the updated entry
        obtain ⟨l1, l2, hldec, hstrict, hglob⟩ := h4 (tag_key c, e0) he0
        by_cases hc : c.confidence > e0.confidence
        · -- replaced by c
          have hm' : kv = (tag_key c, c) := by rw [hm, if_pos hc]
          rw [hm']
          refine ⟨l, [], by simp, ?_, ?_⟩
          · intro u hu hukey
            exact lt_of_le_of_lt (hglob u hu hukey) hc
          · intro u hu hukey
            rcases List.mem_append.mp hu with hm2 | hm2
            · exact le_of_lt (lt_of_le_of_lt (hglob u hm2 hukey) hc)
            · have hm3 : u = c := by simpa using hm2
              rw [hm3]
        · -- kept e0
          have hm' : kv = (tag_key c, e0) := by rw [hm, if_neg hc]
          rw [hm']
          refine ⟨l1, l2 ++ [c], by simp [hldec], ?_, ?_⟩
          · intro u hu hukey
            exact hstrict u hu hukey
          · intro u hu hukey
            rcases List.mem_append.mp hu with hm2 | hm2
            · exact hglob u hm2 hukey
            · have hm3 : u = c := by simpa using hm2
              rw [hm3]
              exact not_lt.mp hc
  · -- new key: appended at the end
    have hno : ∀ kv ∈ acc, kv.1 ≠ tag_key c := by
      intro kv hkv heq
      exact hkey ⟨kv, hkv, heq⟩
    have hupd := merged_upd_no_key acc c hno
    constructor
    · intro kv hkv
      rw [hupd] at hkv
      rcases List.mem_append.mp hkv with hm | hm
      · exact h1 kv hm
      · have : kv = (tag_key c, c) := by simpa using hm
        subst this
        rfl
    refine ⟨?_, ?_, ?_⟩
    · rw [hupd, List.map_append]
      rw [List.nodup_append]
      refine ⟨h2, by simp, ?_⟩
      intro x hx
      simp only [List.map_cons, List.map_nil, List.mem_singleton]
      intro hx2
      obtain ⟨kv, hkv, hkveq⟩ := List.mem_map.mp hx
      exact hno kv hkv (by rw [hkveq, hx2])
    · intro u hu
      rcases List.mem_append.mp hu with hm | hm
      · obtain ⟨kv, hkv, hkvkey⟩ := h3 u hm
        exact ⟨kv, by rw [hupd]; exact List.mem_append_left _ hkv, hkvkey⟩
      · have : u = c := by simpa using hm
        subst this
        exact ⟨(tag_key u, u), by rw [hupd]; simp, rfl⟩
    · intro kv hkv
      rw [hupd] at hkv
      rcases List.mem_append.mp hkv with hm | hm
      · obtain ⟨l1, l2, hldec, hstrict, hglob⟩ := h4 kv hm
        refine ⟨l1, l2 ++ [c], by simp [hldec], hstrict, ?_⟩
        intro u hu hukey
        rcases List.mem_append.mp hu with hm2 | hm2
        · exact hglob u hm2 hukey
        · have hm3 : u = c := by simpa using hm2
          rw [hm3] at hukey
          exact absurd hukey.symm (hno kv hm)
      · have hkvc : kv = (tag_key c, c) := by simpa using hm
        rw [hkvc]
        refine ⟨l, [], by simp, ?_, ?_⟩
        · intro u hu hukey
          exfalso
          obtain ⟨kv2, hkv2, hkv2key⟩ := h3 u hu
          exact hno kv2 hkv2 (by rw [hkv2key, hukey])
        · intro u hu hukey
          rcases List.mem_append.mp hu with hm2 | hm2
          · exfalso
            obtain ⟨kv2, hkv2, hkv2key⟩ := h3 u hm2
            exact hno kv2 hkv2 (by rw [hkv2key, hukey])
          · have hm3 : u = c := by simpa using hm2
            rw [hm3]

theorem merge_inv_fold (l : List TagCandidate) :
    merge_inv l (l.foldl merged_upd []) := by
  induction l using List.reverseRecOn with
  | nil => exact ⟨by simp, by simp, by simp, by simp⟩
  | append_singleton l c ih =>
    rw [List.foldl_append]
    simp only [List.foldl_cons, List.foldl_nil]
    exact merge_inv_step l (l.foldl merged_upd []) c ih

theorem merge_unchanged_aux (l : List TagCandidate) :
    ∀ (acc : List ((String × String) × TagCandidate)),
      (∀ kv ∈ acc, ∀ u ∈ l, kv.1 ≠ tag_key u) →
      l.Pairwise (fun a b => tag_key a ≠ tag_key b) →
      l.foldl merged_upd acc = acc ++ l.map (fun c => (tag_key c, c)) := by
  induction l with
  | nil => intro acc _ _; simp
  | cons c rest ih =>
    intro acc hdisj hpw
    simp only [List.foldl_cons]
    have hstep : merged_upd acc c = acc ++ [(tag_key c, c)] :=
      merged_upd_no_key acc c (fun kv hkv => hdisj kv hkv c (by simp))
    rw [hstep]
    have hdisj2 : ∀ kv ∈ acc ++ [(tag_key c, c)], ∀ u ∈ rest, kv.1 ≠ tag_key u := by
      intro kv hkv u hu
      rcases List.mem_append.mp hkv with hm | hm
      · exact hdisj kv hm u (by simp [hu])
      · have hkvc : kv = (tag_key c, c) := by simpa using hm
        rw [hkvc]
        exact (List.pairwise_cons.mp hpw).1 u hu
    rw [ih (acc ++ [(tag_key c, c)]) hdisj2 (List.Pairwise.of_cons hpw)]
    simp

end MealTaxonomy

namespace MealTaxonomy

/-! ## Store lemmas for the duplicate-row analysis (C9) -/

theorem store_lookup_state (lf : Bool)
    (rpc_impl : Store → RpcArgs → Except Unit (List RpcRow))
    (scan_impl : Store → String → Nat → List MealRow)
    (e : EnrichedMealVariant) (s : Store) :
    (get_existing_variant (store_client lf rpc_impl scan_impl) e s).2 = s := by
  unfold get_existing_variant store_client
  cases lf <;> rfl

theorem store_update_filter_len (st sid : String) (p : VariantPayload) :
    ∀ (l : List StoreVariant),
      ((store_update_variant l p).filter (variant_matches st sid)).length =
      (l.filter (variant_matches st sid)).length := by
  intro l
  induction l with
  | nil => rfl
  | cons v vs ih =>
    unfold store_update_variant
    split
    · have hkeep : variant_matches st sid
          { v with meal_id := p.meal_id, needs_review := p.needs_review } =
          variant_matches st sid v := by
        simp [variant_matches]
      cases h2 : variant_matches st sid v with
      | true => simp [List.filter_cons, hkeep, h2]
      | false => simp [List.filter_cons, hkeep, h2]
    · cases h2 : variant_matches st sid v with
      | true => simp [List.filter_cons, h2, ih]
      | false => simp [List.filter_cons, h2, ih]

theorem store_upsert_count_le (lf : Bool)
    (rpc_impl : Store → RpcArgs → Except Unit (List RpcRow))
    (scan_impl : Store → String → Nat → List MealRow)
    (s : Store) (p : VariantPayload) (oc st sid : String)
    (h : (s.variants.filter (variant_matches st sid)).length ≤ 1) :
    ((((store_client lf rpc_impl scan_impl).upsert_variant_row s p oc).2).variants.filter
      (variant_matches st sid)).length ≤ 1 := by
  unfold store_client
  dsimp only
  cases hh : (s.variants.filter (variant_matches p.source_type p.source_id)).head? with
  | some v =>
    dsimp only
    rw [store_update_filter_len]
    exact h
  | none =>
    dsimp only
    rw [List.filter_append, List.length_append]
    have hfil0 : s.variants.filter (variant_matches p.source_type p.source_id) = [] :=
      List.head?_eq_none_iff.mp hh
    by_cases hm : variant_matches st sid
        { id := toString s.next_id, meal_id := p.meal_id,
          source_type := p.source_type, source_id := p.source_id,
          needs_review := p.needs_review } = true
    · have hpkey : p.source_type = st ∧ p.source_id = sid := by
        simpa [variant_matches] using hm
      have hz : s.variants.filter (variant_matches st sid) = [] := by
        rw [← hpkey.1, ← hpkey.2]
        exact hfil0
      rw [hz]
      simp [List.filter_cons, hm]
    · have hmf : variant_matches st sid
          { id := toString s.next_id, meal_id := p.meal_id,
            source_type := p.source_type, source_id := p.source_id,
            needs_review := p.needs_review } = false := by
        cases hb : variant_matches st sid
            { id := toString s.next_id, meal_id := p.meal_id,
              source_type := p.source_type, source_id := p.source_id,
              needs_review := p.needs_review }
        · rfl
        · exact absurd hb hm
      simp only [List.filter_cons, hmf, Bool.false_eq_true, if_false,
        List.filter_nil, List.length_nil]
      omega

theorem store_brain_finish_state (lf : Bool)
    (rpc_impl : Store → RpcArgs → Except Unit (List RpcRow))
    (scan_impl : Store → String → Nat → List MealRow)
    (e : EnrichedMealVariant) (mid st' : String) (nr : Bool) (sX : Store) :
    (brain_finish (store_client lf rpc_impl scan_impl) e mid st' nr sX).2 =
      ((store_client lf rpc_impl scan_impl).upsert_variant_row sX
        (variant_payload e mid nr) conflict_key).2 := by
  unfold brain_finish upsert_variant
  rcases hop : (store_client lf rpc_impl scan_impl).upsert_variant_row sX
      (variant_payload e mid nr) conflict_key with ⟨r, s2⟩
  cases r with
  | ok rows =>
    cases rows <;> rfl
  | error u => rfl

/-- One run of `upsert_meal` over the concrete store keeps at most one
Variant row per (source_type, source_id) key, even when the idempotency
lookup raises. -/
theorem store_run_count (lf : Bool)
    (rpc_impl : Store → RpcArgs → Except Unit (List RpcRow))
    (scan_impl : Store → String → Nat → List MealRow)
    (e : EnrichedMealVariant) (s : Store) (st sid : String)
    (h : (s.variants.filter (variant_matches st sid)).length ≤ 1) :
    ((((upsert_meal (store_client lf rpc_impl scan_impl) e s).2).variants).filter
      (variant_matches st sid)).length ≤ 1 := by
  rcases hlook : get_existing_variant (store_client lf rpc_impl scan_impl) e s
    with ⟨exi, s0⟩
  have hs0 : s0 = s := by
    have := store_lookup_state lf rpc_impl scan_impl e s
    rw [hlook] at this
    exact this
  cases exi with
  | some ex =>
    rw [upsert_meal_existing _ e s ex s0 hlook]
    dsimp only
    rw [hs0]
    exact h
  | none =>
    rcases hfind : find_candidate_meals (store_client lf rpc_impl scan_impl) e s0 20
      with ⟨cands, s1⟩
    have hs1 : s1 = s := by
      have := store_find_state lf rpc_impl scan_impl e s0 20
      rw [hfind] at this
      dsimp only at this
      rw [this, hs0]
    rcases hpick : pick_best_candidate e cands with ⟨b, sc⟩
    have hfin : ∀ (mid st2 : String) (nr : Bool) (sX : Store),
        sX.variants = s.variants →
        (((brain_finish (store_client lf rpc_impl scan_impl) e mid st2 nr sX).2).variants.filter
          (variant_matches st sid)).length ≤ 1 := by
      intro mid st2 nr sX hX
      rw [store_brain_finish_state]
      apply store_upsert_count_le
      rw [hX]
      exact h
    cases b with
    | some bc =>
      by_cases h1 : sc ≥ T_SAME
      · rw [upsert_meal_attach _ e s s0 s1 cands bc sc hlook hfind hpick h1]
        exact hfin bc.id _ false s1 (by rw [hs1])
      · by_cases h2 : sc ≥ T_MAYBE
        · rw [upsert_meal_review _ e s s0 s1 cands bc sc hlook hfind hpick h1 h2]
          exact hfin bc.id _ true s1 (by rw [hs1])
        · rw [upsert_meal_newc_some _ e s s0 s1 cands bc sc hlook hfind hpick h1 h2]
          refine hfin _ _ true _ ?_
          rw [store_insert_parts lf rpc_impl scan_impl e s1]
          rw [hs1]
    | none =>
      rw [upsert_meal_newc_none _ e s s0 s1 cands sc hlook hfind hpick]
      refine hfin _ _ true _ ?_
      rw [store_insert_parts lf rpc_impl scan_impl e s1]
      rw [hs1]

/-- C9: a raised exception in the idempotency lookup is treated exactly as
an empty lookup — the call proceeds with the same retrieval, scoring and
write requests and the same result; the subsequent variant upsert is keyed
by the same (source_type, source_id) pair with the `source_type,source_id`
conflict clause; and over the concrete store (even with the lookup failing)
a run never leaves more than one Variant row per source key. -/
theorem C9_lookup_failure :
    (∀ (R : Responses) (e : EnrichedMealVariant),
      upsert_meal (scripted { R with variant_data := Except.error () }) e [] =
      upsert_meal (scripted { R with variant_data := Except.ok [] }) e []) ∧
    (∀ (e : EnrichedMealVariant) (mid : String) (nr : Bool),
      (variant_payload e mid nr).source_type = e.raw.source_type ∧
      (variant_payload e mid nr).source_id = e.raw.source_id) ∧
    conflict_key = "source_type,source_id" ∧
    (∀ (lf : Bool) (rpc_impl : Store → RpcArgs → Except Unit (List RpcRow))
       (scan_impl : Store → String → Nat → List MealRow)
       (e : EnrichedMealVariant) (s : Store) (st sid : String),
      (s.variants.filter (variant_matches st sid)).length ≤ 1 →
      ((((upsert_meal (store_client lf rpc_impl scan_impl) e s).2).variants).filter
        (variant_matches st sid)).length ≤ 1) := by
  exact ⟨fun R e => rfl, fun e mid nr => ⟨rfl, rfl⟩, rfl,
    fun lf rpc_impl scan_impl e s st sid h =>
      store_run_count lf rpc_impl scan_impl e s st sid h⟩

theorem C9_witness :
    upsert_meal (scripted { resp_hi with variant_data := Except.error () }) enr_w [] =
      upsert_meal (scripted { resp_hi with variant_data := Except.ok [] }) enr_w [] ∧
    ((((upsert_meal (store_client true (fun _ _ => Except.error ())
        (fun _ _ _ => [])) enr_w
        { meals := [], variants := [], next_id := 0 }).2).variants).filter
      (variant_matches ("datasetA") ("17"))).length ≤ 1 := by
  exact ⟨C9_lookup_failure.1 resp_hi enr_w,
    C9_lookup_failure.2.2.2 true (fun _ _ => Except.error ()) (fun _ _ _ => [])
      enr_w { meals := [], variants := [], next_id := 0 }
      ("datasetA") ("17") (by simp)⟩

/-! ## C5: tag merging -/

def tag_m_hi : TagCandidate :=
  { tag_type := "diet", value := "vegan", label_en := "Vegan",
    confidence := 9/10, is_primary := false }

def tag_m_lo : TagCandidate :=
  { tag_type := "diet", value := "vegan", label_en := "Vegan",
    confidence := 1/2, is_primary := true }

def tag_case : TagCandidate :=
  { tag_type := "Diet", value := "vegan", label_en := "Vegan" }

def tag_other : TagCandidate :=
  { tag_type := "course", value := "snack", label_en := "Snack" }

/-- C5 counterexample: the persistence-path serializer
(`_serialize_tag_candidates`) keeps both members of a duplicate
(type, value) pair (no merge happens before persistence); the only merge in
the pipeline (`nlp_tags_for_recipe` step 3) collapses the pair to the single
max-confidence member carrying that member's own is_primary (false) even
though the dropped member was primary (so is_primary is NOT the OR of the
group); and the merge keys on the exact strings, so "Diet" vs "diet" are
kept as two distinct entries (no case normalization). -/
theorem C5_counterexample :
    tag_m_hi.tag_type = tag_m_lo.tag_type ∧ tag_m_hi.value = tag_m_lo.value ∧
    serialize_tag_candidates [some tag_m_hi, some tag_m_lo] =
      [tag_m_hi, tag_m_lo] ∧
    merge_nlp_tags [tag_m_hi, tag_m_lo] = [tag_m_hi] ∧
    tag_m_hi.is_primary = false ∧ tag_m_lo.is_primary = true ∧
    tag_case.tag_type = "Diet" ∧ tag_m_hi.tag_type = "diet" ∧
    (merge_nlp_tags [tag_m_hi, tag_case]).length = 2 := by
  refine ⟨rfl, rfl, rfl, by with_unfolding_all rfl, rfl, rfl, rfl, rfl,
    by with_unfolding_all rfl⟩

/-- C5 (corrected): the serializer used on the persistence path performs no
grouping at all (one entry per non-None candidate, duplicates preserved);
the tag merge that does exist (`nlp_tags_for_recipe` step 3) groups by the
EXACT (tag_type, value) pair with no case/whitespace normalization, and
yields pairwise-distinct keys where each survivor is the first input
attaining its group's maximum confidence, carrying that member's own
is_primary flag (not the OR of the group); a list whose keys are already
pairwise distinct is returned unchanged. -/
theorem C5_tag_merge :
    (∀ cs : List TagCandidate, serialize_tag_candidates (cs.map some) = cs) ∧
    (∀ l : List TagCandidate,
      (merge_nlp_tags l).Pairwise (fun a b => tag_key a ≠ tag_key b)) ∧
    (∀ (l : List TagCandidate) (t : TagCandidate), t ∈ merge_nlp_tags l →
      ∃ l1 l2, l = l1 ++ t :: l2 ∧
        (∀ u ∈ l1, tag_key u = tag_key t → u.confidence < t.confidence) ∧
        (∀ u ∈ l, tag_key u = tag_key t → u.confidence ≤ t.confidence)) ∧
    (∀ l : List TagCandidate,
      l.Pairwise (fun a b => tag_key a ≠ tag_key b) →
      merge_nlp_tags l = l) := by
  refine ⟨?_, ?_, ?_, ?_⟩
  · intro cs
    simp [serialize_tag_candidates]
  · intro l
    obtain ⟨h1, h2, _, _⟩ := merge_inv_fold l
    unfold merge_nlp_tags
    rw [List.pairwise_map]
    refine List.Pairwise.imp_of_mem ?_ (List.pairwise_map.mp h2)
    intro a b ha hb hab
    intro hk
    apply hab
    rw [h1 a ha, h1 b hb]
    exact hk
  · intro l t ht
    obtain ⟨h1, _, _, h4⟩ := merge_inv_fold l
    unfold merge_nlp_tags at ht
    obtain ⟨kv, hkv, hkveq⟩ := List.mem_map.mp ht
    obtain ⟨l1, l2, hdec, hstrict, hglob⟩ := h4 kv hkv
    have hkey : kv.1 = tag_key t := by
      rw [h1 kv hkv, hkveq]
    rw [hkveq] at hdec
    rw [hkey, hkveq] at hstrict hglob
    exact ⟨l1, l2, hdec, hstrict, hglob⟩
  · intro l hl
    unfold merge_nlp_tags
    rw [merge_unchanged_aux l [] (by simp) hl]
    simp only [List.nil_append, List.map_map]
    have hcomp : ((fun kv : (String × String) × TagCandidate => kv.2) ∘
        fun c => (tag_key c, c)) = id := rfl
    rw [hcomp, List.map_id]

theorem C5_witness :
    merge_nlp_tags [tag_m_hi, tag_other] = [tag_m_hi, tag_other] ∧
    serialize_tag_candidates (List.map some [tag_m_hi, tag_other]) =
      [tag_m_hi, tag_other] := by
  constructor
  · exact C5_tag_merge.2.2.2 [tag_m_hi, tag_other]
      (by simp [tag_key, tag_m_hi, tag_other])
  · exact C5_tag_merge.1 [tag_m_hi, tag_other]

end MealTaxonomy
